import Mathlib

/-!
Verification of the go-dag library (p0pr0ck5/go-dag): a shallow embedding of
`dag.go` and `node.go` over value type `Nat`, together with proofs of the
specification claims.

Modelling conventions:
* A Go `*Node[T]` is identified with its `data` value: within one `DAG`, the
  value-to-node index maps each value to a unique node, so pointer identity
  coincides with value identity.  Adjacency sets (`map[*Node[T]]struct{}`)
  become duplicate-free `List Val` of neighbour values.
* The Go map `nodes map[T]*Node[T]` becomes an association list
  `List (Val × Node)`; iteration order of a Go map is arbitrary, the list
  order is one such order.
* Go slices returned by `Ancestors`/`Descendants`/`ShortestPath` are modelled
  as `Option (List Val)`: `none` is the nil slice, `some l` a non-nil slice
  (Go `append` on a nil slice allocates, yielding non-nil).
* Recursions that Go terminates via a monotonically growing `visited` set are
  modelled with explicit fuel `g.nodes.length + 1`, which is proved sufficient.
-/

abbrev Val := Nat

/-- A node of the DAG: one data value plus parent/child adjacency
(`node.go`, `type Node[T comparable] struct`). -/
structure Node where
  data : Val
  parents : List Val
  children : List Val
deriving Repr, DecidableEq

/-- `NewNode` (node.go): a fresh node with empty adjacency. -/
def NewNode (data : Val) : Node :=
  ⟨data, [], []⟩

/-- The DAG container (`dag.go`, `type DAG[T comparable] struct`): the
value-to-node index. -/
structure DAG where
  nodes : List (Val × Node)
deriving Repr, DecidableEq

/-- `NewDAG` (dag.go): the empty graph. -/
def NewDAG : DAG := ⟨[]⟩

/-- Lookup in the value-to-node index (`d.nodes[data]`). -/
def lookupNode : List (Val × Node) → Val → Option Node
  | [], _ => none
  | (w, n) :: rest, v => if v = w then some n else lookupNode rest v

/-- The set of values present in the graph (the keys of the index). -/
def DAG.keys (g : DAG) : List Val := g.nodes.map Prod.fst

/-- `Node(data)` (dag.go): direct index lookup, `none` models the nil pointer. -/
def DAG.node (g : DAG) (v : Val) : Option Node := lookupNode g.nodes v

/-- Raw parent set of the node for `v` (empty when `v` is absent). -/
def parentsOf (g : DAG) (v : Val) : List Val :=
  match lookupNode g.nodes v with
  | some n => n.parents
  | none => []

/-- Raw child set of the node for `v` (empty when `v` is absent). -/
def childrenOf (g : DAG) (v : Val) : List Val :=
  match lookupNode g.nodes v with
  | some n => n.children
  | none => []

/-- Little-endian decimal digits of `n` (empty for 0), with explicit fuel
(`n / 10` strictly decreases, and `n + 1` units of fuel always suffice). -/
def digitsRevAux : Nat → Nat → List Nat
  | 0, _ => []
  | fuel + 1, n => if n = 0 then [] else n % 10 :: digitsRevAux fuel (n / 10)

/-- The decimal digit string of `n`, most significant digit first: the
comparison key `fmt.Sprintf("%v", n)` yields for a natural number.  Digit
characters are ordered like their values, so byte order of the strings is
lexicographic order of these digit lists. -/
def reprDigits (n : Nat) : List Nat :=
  if n = 0 then [0] else (digitsRevAux (n + 1) n).reverse

/-- Comparison used by `Parents()`/`Children()` (node.go): order neighbours by
the textual (decimal) representation of their data, byte-lexicographically. -/
def reprLe (a b : Val) : Prop := ¬ reprDigits b < reprDigits a

instance : DecidableRel reprLe := fun a b =>
  inferInstanceAs (Decidable (¬ reprDigits b < reprDigits a))

/-- Deterministic ordering of an adjacency set by textual representation
(node.go: `sort.Slice` with `fmt.Sprintf` comparison). -/
def sortByRepr (l : List Val) : List Val := l.insertionSort reprLe

/-- `Parents()` (node.go): parent values in deterministic order. -/
def Parents (g : DAG) (v : Val) : List Val := sortByRepr (parentsOf g v)

/-- `Children()` (node.go): child values in deterministic order. -/
def Children (g : DAG) (v : Val) : List Val := sortByRepr (childrenOf g v)

theorem mem_sortByRepr {l : List Val} {x : Val} : x ∈ sortByRepr l ↔ x ∈ l :=
  List.mem_insertionSort reprLe

theorem sortByRepr_perm (l : List Val) : List.Perm (sortByRepr l) l :=
  List.perm_insertionSort reprLe l

theorem sortByRepr_nodup {l : List Val} (h : l.Nodup) : (sortByRepr l).Nodup :=
  ((sortByRepr_perm l).nodup_iff).mpr h

theorem mem_Parents {g : DAG} {v x : Val} : x ∈ Parents g v ↔ x ∈ parentsOf g v :=
  mem_sortByRepr

theorem mem_Children {g : DAG} {v x : Val} : x ∈ Children g v ↔ x ∈ childrenOf g v :=
  mem_sortByRepr

/-- `AddNode(data)` (dag.go): return the existing node if present, otherwise
register a fresh node.  Returns the node together with the updated graph
(the Go method mutates the receiver). -/
def addNode (g : DAG) (v : Val) : Node × DAG :=
  match lookupNode g.nodes v with
  | some n => (n, g)
  | none =>
    let n := NewNode v
    (n, ⟨(v, n) :: g.nodes⟩)

/-- Apply `f` to the node stored under key `v` (in-place mutation of a node
looked up from the index). -/
def updateNode (l : List (Val × Node)) (v : Val) (f : Node → Node) : List (Val × Node) :=
  l.map (fun e => (e.1, if e.1 = v then f e.2 else e.2))

/-- The neighbour loop of the depth-first searches: try each unvisited
neighbour in turn with the given `visit` continuation, threading the visited
set, short-circuiting on success. -/
def dfsFoldF (visit : Val → List Val → Bool × List Val) :
    List Val → List Val → Bool × List Val
  | [], vis => (false, vis)
  | p :: ps, vis =>
    if p ∈ vis then dfsFoldF visit ps vis
    else
      match visit p vis with
      | (true, vis1) => (true, vis1)
      | (false, vis1) => dfsFoldF visit ps vis1

/-- Generic depth-first search with a threaded `visited` set, the common shape
of `hasAncestor` (node.go, over `Parents()`) and `HasPath` (dag.go, over
`Children()`): `visit(node)` returns true when `node` is the target, otherwise
marks `node` visited and recurses into unvisited neighbours.  Go terminates
because `visited` grows; here explicit fuel is threaded, and proved
sufficient for fuel exceeding the number of graph nodes. -/
def dfsVisit (adj : Val → List Val) (target : Val) : Nat → Val → List Val → Bool × List Val
  | 0, _, vis => (false, vis)
  | fuel + 1, nd, vis =>
    if nd = target then (true, vis)
    else dfsFoldF (dfsVisit adj target fuel) (adj nd) (nd :: vis)

/-- The neighbour loop of `dfsVisit` at a fixed fuel. -/
def dfsFold (adj : Val → List Val) (target : Val) (fuel : Nat) :
    List Val → List Val → Bool × List Val :=
  dfsFoldF (dfsVisit adj target fuel)

/-- `hasAncestor(ancestor)` (node.go): depth-first search upward through
`Parents()` from `n`, true when `anc` is encountered (including `n` itself,
checked before anything else). -/
def hasAncestor (g : DAG) (n anc : Val) : Bool :=
  (dfsVisit (Parents g) anc (g.nodes.length + 1) n []).1

/-- Result of `AddEdge` (dag.go): `nil` or `ErrCycleDetected`. -/
inductive AddEdgeResult
  | ok
  | cycleDetected
deriving Repr, DecidableEq

/-- `AddEdge(from, to)` (dag.go): auto-vivify both endpoints via `AddNode`,
veto the edge when `fromNode.hasAncestor(toNode)`, otherwise link
`from.children += to` and `to.parents += from`.  The graph component of the
result reflects that the `AddNode` calls happen before the cycle check. -/
def addEdge (g : DAG) (f t : Val) : AddEdgeResult × DAG :=
  let g1 := (addNode g f).2
  let g2 := (addNode g1 t).2
  if hasAncestor g2 f t then (.cycleDetected, g2)
  else
    (.ok, ⟨updateNode (updateNode g2.nodes f (fun n => { n with children := n.children.insert t }))
            t (fun n => { n with parents := n.parents.insert f })⟩)

/-- The per-neighbour unlinking done by `RemoveNode` (dag.go): when the node
`n` being removed (with value `v`) lists `w` as a parent, delete `v` from
`w`'s children; when it lists `w` as a child, delete `v` from `w`'s
parents. -/
def detach (n : Node) (v w : Val) (m : Node) : Node :=
  let m1 := if w ∈ n.parents then { m with children := m.children.erase v } else m
  if w ∈ n.children then { m1 with parents := m1.parents.erase v } else m1

/-- `RemoveNode(data)` (dag.go): no-op when absent; otherwise delete the node
from every parent's children set and every child's parents set, then remove
it from the index. -/
def removeNode (g : DAG) (v : Val) : DAG :=
  match lookupNode g.nodes v with
  | none => g
  | some n =>
    ⟨(g.nodes.filter (fun e => e.1 ≠ v)).map (fun e => (e.1, detach n v e.1 e.2))⟩

/-- `RemoveEdge(from, to)` (dag.go): no-op when either endpoint is absent;
otherwise delete the mutual link. -/
def removeEdge (g : DAG) (f t : Val) : DAG :=
  match lookupNode g.nodes f, lookupNode g.nodes t with
  | some _, some _ =>
    ⟨updateNode (updateNode g.nodes f (fun n => { n with children := n.children.erase t }))
      t (fun n => { n with parents := n.parents.erase f })⟩
  | _, _ => g

/-- `Clear()` (dag.go): reset to the empty graph. -/
def clear (_ : DAG) : DAG := ⟨[]⟩

/-- `HasPath(from, to)` (dag.go): false when either endpoint is absent,
otherwise a depth-first search over `Children()` that short-circuits on
reaching `to` (checked before the visited bookkeeping). -/
def hasPath (g : DAG) (f t : Val) : Bool :=
  match lookupNode g.nodes f, lookupNode g.nodes t with
  | some _, some _ => (dfsVisit (Children g) t (g.nodes.length + 1) f []).1
  | _, _ => false

/-- One dequeue step of `ShortestPath`'s BFS (dag.go): extend the dequeued
path to every unvisited child, marking it visited on first discovery. -/
def bfsStep (p : List Val) (st : List (Val × List Val) × List Val) (c : Val) :
    List (Val × List Val) × List Val :=
  if c ∈ st.2 then st
  else (st.1 ++ [(c, p ++ [c])], c :: st.2)

/-- The BFS loop of `ShortestPath` (dag.go): a FIFO queue of
`(node, path-so-far)` pairs; returns the stored path the first time `to` is
dequeued. -/
def shortestPathLoop (g : DAG) (t : Val) : Nat → List (Val × List Val) → List Val → Option (List Val)
  | 0, _, _ => none
  | _ + 1, [], _ => none
  | fuel + 1, (v, p) :: rest, vis =>
    if v = t then some p
    else
      let st := (Children g v).foldl (bfsStep p) ([], vis)
      shortestPathLoop g t fuel (rest ++ st.1) st.2

/-- `ShortestPath(from, to)` (dag.go): nil when either endpoint is absent,
otherwise BFS over children from `from` (queue seeded with `(from, [from])`,
`from` pre-visited). -/
def shortestPath (g : DAG) (f t : Val) : Option (List Val) :=
  match lookupNode g.nodes f, lookupNode g.nodes t with
  | some _, some _ => shortestPathLoop g t (g.nodes.length + 1) [(f, [f])] [f]
  | _, _ => none

/-- Go `append` on a possibly-nil slice: appending to nil allocates, so the
result is always non-nil. -/
def goAppend (s : Option (List Val)) (v : Val) : Option (List Val) :=
  some (s.getD [] ++ [v])

/-- The neighbour loop of the `Ancestors`/`Descendants` collector: mark,
append and recurse (via the given `visit` continuation) into each unseen
neighbour in order. -/
def collectFoldF
    (visit : Val → Option (List Val) → List Val → Option (List Val) × List Val) :
    List Val → Option (List Val) → List Val → Option (List Val) × List Val
  | [], acc, vis => (acc, vis)
  | p :: ps, acc, vis =>
    if p ∈ vis then collectFoldF visit ps acc vis
    else
      match visit p (goAppend acc p) (p :: vis) with
      | (acc1, vis1) => collectFoldF visit ps acc1 vis1

/-- The recursive collector shared by `Ancestors` and `Descendants` (dag.go):
`visit(node)` walks the (sorted) neighbours of `node`, and for each unseen
neighbour marks it, appends it to the accumulator, then recurses.  The start
node itself is never marked or collected. -/
def collectVisit (adj : Val → List Val) :
    Nat → Val → Option (List Val) → List Val → Option (List Val) × List Val
  | 0, _, acc, vis => (acc, vis)
  | fuel + 1, nd, acc, vis => collectFoldF (collectVisit adj fuel) (adj nd) acc vis

/-- The neighbour loop of `collectVisit` at a fixed fuel. -/
def collectFold (adj : Val → List Val) (fuel : Nat) :
    List Val → Option (List Val) → List Val → Option (List Val) × List Val :=
  collectFoldF (collectVisit adj fuel)

/-- `Ancestors(data)` (dag.go): nil for a missing start, otherwise the DFS
closure over `Parents()` in first-discovery order (a Go nil slice when
nothing is ever appended). -/
def ancestors (g : DAG) (v : Val) : Option (List Val) :=
  match lookupNode g.nodes v with
  | none => none
  | some _ => (collectVisit (Parents g) (g.nodes.length + 1) v none []).1

/-- `Descendants(data)` (dag.go): mirror image of `Ancestors` over
`Children()`. -/
def descendants (g : DAG) (v : Val) : Option (List Val) :=
  match lookupNode g.nodes v with
  | none => none
  | some _ => (collectVisit (Children g) (g.nodes.length + 1) v none []).1

/-- One dequeue step of `Traverse`'s Kahn loop (dag.go): decrement the
in-degree of each child of the dequeued node, enqueueing children whose
count reaches zero. -/
def kahnStep (st : (Val → Int) × List Val) (c : Val) : (Val → Int) × List Val :=
  let d := st.1 c - 1
  let deg := fun w => if w = c then d else st.1 w
  if d = 0 then (deg, st.2 ++ [c]) else (deg, st.2)

/-- The queue loop of `Traverse` (dag.go): pop the front, append it to the
output, process its children in deterministic order. -/
def traverseLoop (g : DAG) : Nat → List Val → (Val → Int) → List Val → List Val
  | 0, _, _, sorted => sorted
  | _ + 1, [], _, sorted => sorted
  | fuel + 1, cur :: rest, deg, sorted =>
    let st := (Children g cur).foldl kahnStep (deg, [])
    traverseLoop g fuel (rest ++ st.2) st.1 (sorted ++ [cur])

/-- `Traverse()` (dag.go): Kahn topological sort; in-degree is the parent
count, the queue is seeded with the zero-in-degree nodes in index order. -/
def traverse (g : DAG) : List Val :=
  let deg : Val → Int := fun v => ((parentsOf g v).length : Int)
  let queue := g.keys.filter (fun v => deg v = 0)
  traverseLoop g (g.nodes.length + 1) queue deg []

/-! ## Graph predicates -/

/-- `p` is a parent of `c`: there is a stored edge `p → c` seen from `c`'s
parents set. -/
def ParentOf (g : DAG) (p c : Val) : Prop := p ∈ parentsOf g c

instance (g : DAG) (p c : Val) : Decidable (ParentOf g p c) :=
  inferInstanceAs (Decidable (p ∈ parentsOf g c))

/-- There is a stored edge `a → b` seen from `a`'s children set. -/
def EdgeMem (g : DAG) (a b : Val) : Prop := b ∈ childrenOf g a

instance (g : DAG) (a b : Val) : Decidable (EdgeMem g a b) :=
  inferInstanceAs (Decidable (b ∈ childrenOf g a))

/-- `a` is an ancestor of `x`: a nonempty chain of parent links from `x` up
to `a`. -/
def Ancestor (g : DAG) (a x : Val) : Prop := Relation.TransGen (ParentOf g) a x

/-- Downward reachability along edges (zero or more steps). -/
def Reaches (g : DAG) (a b : Val) : Prop := Relation.ReflTransGen (EdgeMem g) a b

/-- No value lies on a nonempty directed cycle. -/
def Acyclic (g : DAG) : Prop := ∀ v, ¬ Relation.TransGen (EdgeMem g) v v

/-- Parent/child mutuality: `y ∈ x.children ⇔ x ∈ y.parents`. -/
def Mutual (g : DAG) : Prop := ∀ x y, y ∈ childrenOf g x ↔ x ∈ parentsOf g y

/-- Structural well-formedness of the index: distinct keys, duplicate-free
adjacency sets, and all adjacency values present in the index. -/
def WF (g : DAG) : Prop :=
  g.keys.Nodup ∧
  ∀ e ∈ g.nodes, e.2.parents.Nodup ∧ e.2.children.Nodup ∧
    (∀ p ∈ e.2.parents, p ∈ g.keys) ∧ (∀ c ∈ e.2.children, c ∈ g.keys)

instance (g : DAG) : Decidable (WF g) :=
  inferInstanceAs (Decidable (_ ∧ _))

/-- The combined invariant every reachable graph satisfies. -/
def GraphInv (g : DAG) : Prop := WF g ∧ Mutual g ∧ Acyclic g

/-- Graph states reachable from the empty graph through the public mutation
surface. -/
inductive Reachable : DAG → Prop
  | empty : Reachable NewDAG
  | addNode {g : DAG} (v : Val) : Reachable g → Reachable (addNode g v).2
  | addEdge {g : DAG} (f t : Val) : Reachable g → Reachable (addEdge g f t).2
  | removeNode {g : DAG} (v : Val) : Reachable g → Reachable (removeNode g v)
  | removeEdge {g : DAG} (f t : Val) : Reachable g → Reachable (removeEdge g f t)
  | clear {g : DAG} : Reachable g → Reachable (clear g)

/-! ## Association-list lemmas -/

theorem lookupNode_eq_none {l : List (Val × Node)} {v : Val} :
    lookupNode l v = none ↔ v ∉ l.map Prod.fst := by
  induction l with
  | nil => simp [lookupNode]
  | cons e rest ih =>
    obtain ⟨w, n⟩ := e
    by_cases h : v = w <;> simp [lookupNode, h, ih]

theorem lookupNode_isSome_iff {l : List (Val × Node)} {v : Val} :
    (lookupNode l v).isSome = true ↔ v ∈ l.map Prod.fst := by
  rw [← Decidable.not_iff_not, ← lookupNode_eq_none]
  cases lookupNode l v <;> simp

theorem mem_keys {g : DAG} {v : Val} :
    v ∈ g.keys ↔ (lookupNode g.nodes v).isSome = true := by
  rw [lookupNode_isSome_iff]; rfl

theorem mem_keys_of_lookup {g : DAG} {v : Val} {n : Node}
    (h : lookupNode g.nodes v = some n) : v ∈ g.keys := by
  rw [mem_keys, h]; rfl

theorem lookupNode_mem {l : List (Val × Node)} {v : Val} {n : Node}
    (h : lookupNode l v = some n) : (v, n) ∈ l := by
  induction l with
  | nil => simp [lookupNode] at h
  | cons e rest ih =>
    obtain ⟨w, m⟩ := e
    by_cases hv : v = w
    · subst hv
      simp [lookupNode] at h
      simp [h]
    · simp [lookupNode, hv] at h
      exact List.mem_cons_of_mem _ (ih h)

theorem exists_lookup_of_mem_keys {g : DAG} {v : Val} (h : v ∈ g.keys) :
    ∃ n, lookupNode g.nodes v = some n := by
  rw [mem_keys] at h
  cases hl : lookupNode g.nodes v with
  | none => rw [hl] at h; simp at h
  | some n => exact ⟨n, rfl⟩

theorem lookupNode_updateNode {l : List (Val × Node)} {v w : Val} {f : Node → Node} :
    lookupNode (updateNode l v f) w =
      (lookupNode l w).map (fun n => if w = v then f n else n) := by
  induction l with
  | nil => simp [lookupNode, updateNode]
  | cons e rest ih =>
    obtain ⟨u, n⟩ := e
    by_cases hw : w = u
    · subst hw; simp [updateNode, lookupNode]
    · simpa [updateNode, lookupNode, hw] using ih

theorem keys_updateNode {l : List (Val × Node)} {v : Val} {f : Node → Node} :
    (updateNode l v f).map Prod.fst = l.map Prod.fst := by
  induction l with
  | nil => rfl
  | cons e rest ih => simp [updateNode, ih]

/-! ## Transparency lemmas for the mutation operations -/

theorem addNode_of_present {g : DAG} {v : Val} {n : Node}
    (h : lookupNode g.nodes v = some n) : addNode g v = (n, g) := by
  simp [addNode, h]

theorem addNode_of_absent {g : DAG} {v : Val}
    (h : lookupNode g.nodes v = none) :
    addNode g v = (NewNode v, ⟨(v, NewNode v) :: g.nodes⟩) := by
  simp [addNode, h]

theorem lookupNode_addNode {g : DAG} {v w : Val} :
    lookupNode (addNode g v).2.nodes w =
      if w = v then some ((addNode g v).1) else lookupNode g.nodes w := by
  cases hl : lookupNode g.nodes v with
  | some n =>
    rw [addNode_of_present hl]
    by_cases hw : w = v
    · subst hw; simp [hl]
    · simp [hw]
  | none =>
    rw [addNode_of_absent hl]
    by_cases hw : w = v
    · subst hw; simp [lookupNode]
    · simp [lookupNode, hw]

theorem parentsOf_addNode {g : DAG} {v w : Val} :
    parentsOf (addNode g v).2 w = parentsOf g w := by
  unfold parentsOf
  rw [lookupNode_addNode]
  by_cases hw : w = v
  · subst hw
    simp only [if_pos rfl]
    cases hl : lookupNode g.nodes w with
    | some n => rw [addNode_of_present hl]; simp [hl]
    | none => rw [addNode_of_absent hl]; simp [hl, NewNode]
  · simp [hw]

theorem childrenOf_addNode {g : DAG} {v w : Val} :
    childrenOf (addNode g v).2 w = childrenOf g w := by
  unfold childrenOf
  rw [lookupNode_addNode]
  by_cases hw : w = v
  · subst hw
    simp only [if_pos rfl]
    cases hl : lookupNode g.nodes w with
    | some n => rw [addNode_of_present hl]; simp [hl]
    | none => rw [addNode_of_absent hl]; simp [hl, NewNode]
  · simp [hw]

theorem keys_addNode {g : DAG} {v : Val} :
    (addNode g v).2.keys = if v ∈ g.keys then g.keys else v :: g.keys := by
  by_cases hv : v ∈ g.keys
  · obtain ⟨n, hn⟩ := exists_lookup_of_mem_keys hv
    rw [addNode_of_present hn]
    simp [hv]
  · have hl : lookupNode g.nodes v = none := by
      rw [lookupNode_eq_none]; exact hv
    rw [addNode_of_absent hl]
    simp only [DAG.keys] at hv ⊢
    simp [hv]

theorem mem_keys_addNode_self {g : DAG} {v : Val} : v ∈ (addNode g v).2.keys := by
  rw [keys_addNode]
  by_cases hv : v ∈ g.keys <;> simp [hv]

theorem mem_keys_addNode {g : DAG} {v w : Val} :
    w ∈ (addNode g v).2.keys ↔ w = v ∨ w ∈ g.keys := by
  rw [keys_addNode]
  by_cases hv : v ∈ g.keys
  · simp only [if_pos hv]
    constructor
    · exact Or.inr
    · rintro (rfl | h)
      · exact hv
      · exact h
  · simp [hv]

theorem keys_filter_map {l : List (Val × Node)} {v : Val} {h : Val → Node → Node} :
    ((l.filter (fun e => e.1 ≠ v)).map (fun e => (e.1, h e.1 e.2))).map Prod.fst =
      (l.map Prod.fst).filter (fun w => w ≠ v) := by
  induction l with
  | nil => rfl
  | cons e rest ih =>
    simp only [ne_eq, decide_not] at ih ⊢
    by_cases he : e.1 = v <;> simp [he, ih]

theorem lookupNode_filter_map {l : List (Val × Node)} {v w : Val} {h : Val → Node → Node}
    (hw : w ≠ v) :
    lookupNode ((l.filter (fun e => e.1 ≠ v)).map (fun e => (e.1, h e.1 e.2))) w =
      (lookupNode l w).map (h w) := by
  induction l with
  | nil => simp [lookupNode]
  | cons e rest ih =>
    obtain ⟨u, n⟩ := e
    simp only [ne_eq, decide_not] at ih ⊢
    by_cases hu : u = v
    · subst hu
      have hwu : ¬ w = u := hw
      simp [lookupNode, hwu, ih]
    · by_cases hwu : w = u
      · subst hwu; simp [lookupNode, hu]
      · simp [lookupNode, hu, hwu, ih]

theorem removeNode_of_absent {g : DAG} {v : Val}
    (h : lookupNode g.nodes v = none) : removeNode g v = g := by
  simp [removeNode, h]

theorem removeNode_of_present {g : DAG} {v : Val} {n : Node}
    (h : lookupNode g.nodes v = some n) :
    removeNode g v =
      ⟨(g.nodes.filter (fun e => e.1 ≠ v)).map (fun e => (e.1, detach n v e.1 e.2))⟩ := by
  simp [removeNode, h]

theorem keys_removeNode_present {g : DAG} {v : Val} {n : Node}
    (h : lookupNode g.nodes v = some n) :
    (removeNode g v).keys = g.keys.filter (fun w => w ≠ v) := by
  rw [removeNode_of_present h]
  exact keys_filter_map

theorem lookupNode_removeNode_self {g : DAG} {v : Val} :
    lookupNode (removeNode g v).nodes v = none := by
  cases h : lookupNode g.nodes v with
  | none => rw [removeNode_of_absent h]; exact h
  | some n =>
    rw [lookupNode_eq_none]
    rw [removeNode_of_present h]
    show v ∉ _
    rw [@keys_filter_map g.nodes v (fun w m => detach n v w m)]
    simp

theorem lookupNode_removeNode {g : DAG} {v w : Val} {n : Node}
    (hn : lookupNode g.nodes v = some n) (hw : w ≠ v) :
    lookupNode (removeNode g v).nodes w = (lookupNode g.nodes w).map (detach n v w) := by
  rw [removeNode_of_present hn]
  exact lookupNode_filter_map hw

theorem parentsOf_removeNode {g : DAG} {v w : Val} {n : Node}
    (hn : lookupNode g.nodes v = some n) (hw : w ≠ v) :
    parentsOf (removeNode g v) w =
      if w ∈ n.children then (parentsOf g w).erase v else parentsOf g w := by
  unfold parentsOf
  rw [lookupNode_removeNode hn hw]
  cases hl : lookupNode g.nodes w with
  | none => by_cases hc : w ∈ n.children <;> simp [hc]
  | some m => by_cases hc : w ∈ n.children <;> by_cases hp : w ∈ n.parents <;>
      simp [detach, hc, hp]

theorem childrenOf_removeNode {g : DAG} {v w : Val} {n : Node}
    (hn : lookupNode g.nodes v = some n) (hw : w ≠ v) :
    childrenOf (removeNode g v) w =
      if w ∈ n.parents then (childrenOf g w).erase v else childrenOf g w := by
  unfold childrenOf
  rw [lookupNode_removeNode hn hw]
  cases hl : lookupNode g.nodes w with
  | none => by_cases hp : w ∈ n.parents <;> simp [hp]
  | some m => by_cases hc : w ∈ n.children <;> by_cases hp : w ∈ n.parents <;>
      simp [detach, hc, hp]

theorem parentsOf_removeNode_self {g : DAG} {v : Val} :
    parentsOf (removeNode g v) v = [] := by
  unfold parentsOf
  rw [lookupNode_removeNode_self]

theorem childrenOf_removeNode_self {g : DAG} {v : Val} :
    childrenOf (removeNode g v) v = [] := by
  unfold childrenOf
  rw [lookupNode_removeNode_self]

/-! Transparency for `removeEdge`. -/

theorem removeEdge_of_present {g : DAG} {f t : Val} {nf nt : Node}
    (hf : lookupNode g.nodes f = some nf) (ht : lookupNode g.nodes t = some nt) :
    removeEdge g f t =
      ⟨updateNode (updateNode g.nodes f (fun n => { n with children := n.children.erase t }))
        t (fun n => { n with parents := n.parents.erase f })⟩ := by
  simp [removeEdge, hf, ht]

theorem lookupNode_removeEdge {g : DAG} {f t : Val} {nf nt : Node}
    (hf : lookupNode g.nodes f = some nf) (ht : lookupNode g.nodes t = some nt) (w : Val) :
    lookupNode (removeEdge g f t).nodes w =
      (lookupNode g.nodes w).map (fun n =>
        let n1 := if w = f then { n with children := n.children.erase t } else n
        if w = t then { n1 with parents := n1.parents.erase f } else n1) := by
  have hrw : (removeEdge g f t).nodes =
      updateNode (updateNode g.nodes f (fun n => { n with children := n.children.erase t }))
        t (fun n => { n with parents := n.parents.erase f }) := by
    rw [removeEdge_of_present hf ht]
  rw [hrw, lookupNode_updateNode, lookupNode_updateNode]
  cases lookupNode g.nodes w <;> simp

theorem parentsOf_removeEdge {g : DAG} {f t : Val} {nf nt : Node}
    (hf : lookupNode g.nodes f = some nf) (ht : lookupNode g.nodes t = some nt) (w : Val) :
    parentsOf (removeEdge g f t) w =
      if w = t then (parentsOf g t).erase f else parentsOf g w := by
  unfold parentsOf
  rw [lookupNode_removeEdge hf ht]
  by_cases hwt : w = t
  · subst hwt
    rw [ht]
    by_cases hwf : w = f <;> simp [hwf]
  · cases hl : lookupNode g.nodes w with
    | none => simp [hwt]
    | some m =>
      by_cases hwf : w = f
      · subst hwf; simp [hwt, hl]
      · simp [hwt, hwf, hl]

theorem childrenOf_removeEdge {g : DAG} {f t : Val} {nf nt : Node}
    (hf : lookupNode g.nodes f = some nf) (ht : lookupNode g.nodes t = some nt) (w : Val) :
    childrenOf (removeEdge g f t) w =
      if w = f then (childrenOf g f).erase t else childrenOf g w := by
  unfold childrenOf
  rw [lookupNode_removeEdge hf ht]
  by_cases hwf : w = f
  · subst hwf
    rw [hf]
    by_cases hwt : w = t <;> simp [hwt]
  · cases hl : lookupNode g.nodes w with
    | none => simp [hwf]
    | some m =>
      by_cases hwt : w = t
      · subst hwt; simp [hwf, hl]
      · simp [hwt, hwf, hl]

theorem keys_removeEdge {g : DAG} {f t : Val} :
    (removeEdge g f t).keys = g.keys := by
  unfold removeEdge
  cases hf : lookupNode g.nodes f <;> cases ht : lookupNode g.nodes t <;>
    simp [DAG.keys, keys_updateNode]

/-! Transparency for `addEdge`. -/

theorem addEdge_eq_error {g : DAG} {f t : Val}
    (h : hasAncestor (addNode (addNode g f).2 t).2 f t = true) :
    addEdge g f t = (.cycleDetected, (addNode (addNode g f).2 t).2) := by
  simp [addEdge, h]

theorem addEdge_eq_ok {g : DAG} {f t : Val}
    (h : hasAncestor (addNode (addNode g f).2 t).2 f t = false) :
    addEdge g f t =
      (.ok, ⟨updateNode (updateNode (addNode (addNode g f).2 t).2.nodes f
              (fun n => { n with children := n.children.insert t }))
            t (fun n => { n with parents := n.parents.insert f })⟩) := by
  simp [addEdge, h]

theorem addEdge_error_iff {g : DAG} {f t : Val} :
    (addEdge g f t).1 = .cycleDetected ↔
      hasAncestor (addNode (addNode g f).2 t).2 f t = true := by
  cases h : hasAncestor (addNode (addNode g f).2 t).2 f t
  · rw [addEdge_eq_ok h]; simp
  · rw [addEdge_eq_error h]; simp

theorem parentsOf_eq_some {g : DAG} {w : Val} {m : Node}
    (h : lookupNode g.nodes w = some m) : parentsOf g w = m.parents := by
  unfold parentsOf; rw [h]

theorem parentsOf_eq_none {g : DAG} {w : Val}
    (h : lookupNode g.nodes w = none) : parentsOf g w = [] := by
  unfold parentsOf; rw [h]

theorem childrenOf_eq_some {g : DAG} {w : Val} {m : Node}
    (h : lookupNode g.nodes w = some m) : childrenOf g w = m.children := by
  unfold childrenOf; rw [h]

theorem childrenOf_eq_none {g : DAG} {w : Val}
    (h : lookupNode g.nodes w = none) : childrenOf g w = [] := by
  unfold childrenOf; rw [h]

theorem keys_addEdge {g : DAG} {f t : Val} :
    (addEdge g f t).2.keys = (addNode (addNode g f).2 t).2.keys := by
  cases h : hasAncestor (addNode (addNode g f).2 t).2 f t
  · rw [addEdge_eq_ok h]
    simp [DAG.keys, keys_updateNode]
  · rw [addEdge_eq_error h]

theorem lookupNode_addEdge_ok {g : DAG} {f t : Val}
    (h : hasAncestor (addNode (addNode g f).2 t).2 f t = false) (w : Val) :
    lookupNode (addEdge g f t).2.nodes w =
      (lookupNode (addNode (addNode g f).2 t).2.nodes w).map (fun n =>
        let n1 := if w = f then { n with children := n.children.insert t } else n
        if w = t then { n1 with parents := n1.parents.insert f } else n1) := by
  have hrw : (addEdge g f t).2.nodes =
      updateNode (updateNode (addNode (addNode g f).2 t).2.nodes f
        (fun n => { n with children := n.children.insert t }))
        t (fun n => { n with parents := n.parents.insert f }) := by
    rw [addEdge_eq_ok h]
  rw [hrw, lookupNode_updateNode, lookupNode_updateNode]
  cases lookupNode (addNode (addNode g f).2 t).2.nodes w <;> simp

theorem mem_keys_addEdge_base_left (g : DAG) (f t : Val) :
    f ∈ (addNode (addNode g f).2 t).2.keys := by
  rw [mem_keys_addNode]; right; exact mem_keys_addNode_self

theorem mem_keys_addEdge_base_right (g : DAG) (f t : Val) :
    t ∈ (addNode (addNode g f).2 t).2.keys :=
  mem_keys_addNode_self

theorem childrenOf_addEdge_ok {g : DAG} {f t : Val}
    (h : hasAncestor (addNode (addNode g f).2 t).2 f t = false) (w : Val) :
    childrenOf (addEdge g f t).2 w =
      if w = f then (childrenOf g f).insert t else childrenOf g w := by
  cases hl : lookupNode (addNode (addNode g f).2 t).2.nodes w with
  | none =>
    have hwf : w ≠ f := by
      rintro rfl
      obtain ⟨m, hm⟩ := exists_lookup_of_mem_keys (mem_keys_addEdge_base_left g w t)
      rw [hm] at hl; cases hl
    have h0 : childrenOf (addNode (addNode g f).2 t).2 w = [] := childrenOf_eq_none hl
    rw [childrenOf_addNode, childrenOf_addNode] at h0
    have h1 : lookupNode (addEdge g f t).2.nodes w = none := by
      rw [lookupNode_addEdge_ok h, hl]; rfl
    rw [childrenOf_eq_none h1, h0, if_neg hwf]
  | some m =>
    have h0 : childrenOf (addNode (addNode g f).2 t).2 w = m.children := childrenOf_eq_some hl
    rw [childrenOf_addNode, childrenOf_addNode] at h0
    have h1 : lookupNode (addEdge g f t).2.nodes w =
        some (if w = t then { (if w = f then { m with children := m.children.insert t } else m) with
                parents := (if w = f then { m with children := m.children.insert t } else m).parents.insert f }
              else (if w = f then { m with children := m.children.insert t } else m)) := by
      rw [lookupNode_addEdge_ok h, hl]; rfl
    rw [childrenOf_eq_some h1]
    by_cases hwf : w = f
    · subst hwf
      by_cases hwt : w = t
      · subst hwt; simp [← h0]
      · simp [hwt, ← h0]
    · by_cases hwt : w = t
      · subst hwt; simp [hwf, ← h0]
      · simp [hwf, hwt, ← h0]

theorem parentsOf_addEdge_ok {g : DAG} {f t : Val}
    (h : hasAncestor (addNode (addNode g f).2 t).2 f t = false) (w : Val) :
    parentsOf (addEdge g f t).2 w =
      if w = t then (parentsOf g t).insert f else parentsOf g w := by
  cases hl : lookupNode (addNode (addNode g f).2 t).2.nodes w with
  | none =>
    have hwt : w ≠ t := by
      rintro rfl
      obtain ⟨m, hm⟩ := exists_lookup_of_mem_keys (mem_keys_addEdge_base_right g f w)
      rw [hm] at hl; cases hl
    have h0 : parentsOf (addNode (addNode g f).2 t).2 w = [] := parentsOf_eq_none hl
    rw [parentsOf_addNode, parentsOf_addNode] at h0
    have h1 : lookupNode (addEdge g f t).2.nodes w = none := by
      rw [lookupNode_addEdge_ok h, hl]; rfl
    rw [parentsOf_eq_none h1, h0, if_neg hwt]
  | some m =>
    have h0 : parentsOf (addNode (addNode g f).2 t).2 w = m.parents := parentsOf_eq_some hl
    rw [parentsOf_addNode, parentsOf_addNode] at h0
    have h1 : lookupNode (addEdge g f t).2.nodes w =
        some (if w = t then { (if w = f then { m with children := m.children.insert t } else m) with
                parents := (if w = f then { m with children := m.children.insert t } else m).parents.insert f }
              else (if w = f then { m with children := m.children.insert t } else m)) := by
      rw [lookupNode_addEdge_ok h, hl]; rfl
    rw [parentsOf_eq_some h1]
    by_cases hwf : w = f
    · subst hwf
      by_cases hwt : w = t
      · subst hwt; simp [← h0]
      · simp [hwt, ← h0]
    · by_cases hwt : w = t
      · subst hwt; simp [hwf, ← h0]
      · simp [hwf, hwt, ← h0]

/-! ## Depth-first search computes reachability -/

/-- One step of the neighbour relation induced by an adjacency function. -/
def AdjStep (adj : Val → List Val) (x y : Val) : Prop := y ∈ adj x

theorem reflTransGen_congr {r s : Val → Val → Prop} (h : ∀ a b, r a b ↔ s a b) {a b : Val} :
    Relation.ReflTransGen r a b ↔ Relation.ReflTransGen s a b :=
  ⟨Relation.ReflTransGen.mono (fun {a b} hr => (h a b).1 hr),
   Relation.ReflTransGen.mono (fun {a b} hs => (h a b).2 hs)⟩

theorem transGen_congr {r s : Val → Val → Prop} (h : ∀ a b, r a b ↔ s a b) {a b : Val} :
    Relation.TransGen r a b ↔ Relation.TransGen s a b :=
  ⟨Relation.TransGen.mono (fun {a b} hr => (h a b).1 hr),
   Relation.TransGen.mono (fun {a b} hs => (h a b).2 hs)⟩

theorem dfsFold_sound {adj : Val → List Val} {target : Val} {fuel : Nat}
    (hv : ∀ nd vis, (dfsVisit adj target fuel nd vis).1 = true →
      Relation.ReflTransGen (AdjStep adj) nd target) :
    ∀ ps vis, (dfsFold adj target fuel ps vis).1 = true →
      ∃ p ∈ ps, Relation.ReflTransGen (AdjStep adj) p target := by
  intro ps
  induction ps with
  | nil => intro vis h; simp [dfsFold, dfsFoldF] at h
  | cons p ps ih =>
    intro vis h
    rw [dfsFold, dfsFoldF] at h
    by_cases hp : p ∈ vis
    · rw [if_pos hp] at h
      obtain ⟨q, hq, hr⟩ := ih _ h
      exact ⟨q, List.mem_cons_of_mem _ hq, hr⟩
    · rw [if_neg hp] at h
      cases hvis : dfsVisit adj target fuel p vis with
      | mk b vis1 =>
        cases b
        · rw [hvis] at h
          simp only [] at h
          obtain ⟨q, hq, hr⟩ := ih _ h
          exact ⟨q, List.mem_cons_of_mem _ hq, hr⟩
        · have hpt : (dfsVisit adj target fuel p vis).1 = true := by rw [hvis]
          exact ⟨p, List.mem_cons_self _ _, hv _ _ hpt⟩

theorem dfsVisit_sound {adj : Val → List Val} {target : Val} :
    ∀ fuel nd vis, (dfsVisit adj target fuel nd vis).1 = true →
      Relation.ReflTransGen (AdjStep adj) nd target := by
  intro fuel
  induction fuel with
  | zero => intro nd vis h; simp [dfsVisit] at h
  | succ fuel ih =>
    intro nd vis h
    rw [dfsVisit] at h
    by_cases hnd : nd = target
    · subst hnd; exact Relation.ReflTransGen.refl
    · rw [if_neg hnd] at h
      obtain ⟨p, hp, hr⟩ := dfsFold_sound (fun nd vis => ih nd vis) _ _ h
      exact Relation.ReflTransGen.head hp hr

theorem sdiff_card_lt_of_cons {U vis : List Val} {nd : Val} (hU : nd ∈ U) (hvis : nd ∉ vis) :
    (U.toFinset \ (nd :: vis).toFinset).card < (U.toFinset \ vis.toFinset).card := by
  have hmem : nd ∈ U.toFinset \ vis.toFinset := by
    simp [List.mem_toFinset, hU, hvis]
  have hsub : U.toFinset \ (nd :: vis).toFinset ⊆ (U.toFinset \ vis.toFinset).erase nd := by
    intro x hx
    simp only [List.toFinset_cons, Finset.mem_sdiff, Finset.mem_insert, List.mem_toFinset] at hx
    simp only [Finset.mem_erase, Finset.mem_sdiff, List.mem_toFinset]
    push_neg at hx
    exact ⟨hx.2.1, hx.1, hx.2.2⟩
  calc (U.toFinset \ (nd :: vis).toFinset).card
      ≤ ((U.toFinset \ vis.toFinset).erase nd).card := Finset.card_le_card hsub
    _ < (U.toFinset \ vis.toFinset).card := Finset.card_erase_lt_of_mem hmem

theorem sdiff_card_mono {U vis1 vis2 : List Val} (h : vis1 ⊆ vis2) :
    (U.toFinset \ vis2.toFinset).card ≤ (U.toFinset \ vis1.toFinset).card := by
  apply Finset.card_le_card
  intro x hx
  simp only [Finset.mem_sdiff, List.mem_toFinset] at hx ⊢
  exact ⟨hx.1, fun hx1 => hx.2 (h hx1)⟩

/-- State of a failed `dfsVisit` run: the returned visited set extends the
input, stays inside the universe `U`, contains the start node, and every
newly visited node is not the target and has all its neighbours visited. -/
theorem dfs_false_spec {adj : Val → List Val} {target : Val} {U : List Val}
    (hadj : ∀ x, ∀ y ∈ adj x, y ∈ U) :
    ∀ fuel nd vis b vis2, nd ∈ U → nd ∉ vis → vis.Nodup → (∀ x ∈ vis, x ∈ U) →
      (U.toFinset \ vis.toFinset).card < fuel →
      dfsVisit adj target fuel nd vis = (b, vis2) → b = false →
      vis ⊆ vis2 ∧ vis2.Nodup ∧ (∀ x ∈ vis2, x ∈ U) ∧ nd ∈ vis2 ∧
        (∀ x ∈ vis2, x ∉ vis → x ≠ target ∧ ∀ y ∈ adj x, y ∈ vis2) := by
  intro fuel
  induction fuel with
  | zero =>
    intro nd vis b vis2 hnd hndv hnodup hvisU hcard hrun hb
    omega
  | succ fuel ih =>
    have hfold : ∀ ps vis b vis2, (∀ p ∈ ps, p ∈ U) → vis.Nodup → (∀ x ∈ vis, x ∈ U) →
        (U.toFinset \ vis.toFinset).card < fuel →
        dfsFold adj target fuel ps vis = (b, vis2) → b = false →
        vis ⊆ vis2 ∧ vis2.Nodup ∧ (∀ x ∈ vis2, x ∈ U) ∧ (∀ p ∈ ps, p ∈ vis2) ∧
          (∀ x ∈ vis2, x ∉ vis → x ≠ target ∧ ∀ y ∈ adj x, y ∈ vis2) := by
      intro ps
      induction ps with
      | nil =>
        intro vis b vis2 hps hnodup hvisU hcard hrun hb
        rw [dfsFold, dfsFoldF] at hrun
        cases hrun
        exact ⟨fun x hx => hx, hnodup, hvisU, by simp, fun x hx hnx => absurd hx hnx⟩
      | cons p ps ihps =>
        intro vis b vis2 hps hnodup hvisU hcard hrun hb
        rw [dfsFold, dfsFoldF] at hrun
        by_cases hp : p ∈ vis
        · rw [if_pos hp] at hrun
          obtain ⟨h1, h2, h3, h4, h5⟩ :=
            ihps vis b vis2 (fun q hq => hps q (List.mem_cons_of_mem _ hq)) hnodup hvisU hcard hrun hb
          refine ⟨h1, h2, h3, ?_, h5⟩
          intro q hq
          rcases List.mem_cons.mp hq with rfl | hq
          · exact h1 hp
          · exact h4 q hq
        · rw [if_neg hp] at hrun
          cases hv : dfsVisit adj target fuel p vis with
          | mk b1 vis1 =>
            rw [hv] at hrun
            cases b1
            · obtain ⟨v1, v2, v3, v4, v5⟩ :=
                ih p vis false vis1 (hps p (List.mem_cons_self _ _)) hp hnodup hvisU hcard hv rfl
              have hcard1 : (U.toFinset \ vis1.toFinset).card < fuel :=
                lt_of_le_of_lt (sdiff_card_mono v1) hcard
              obtain ⟨w1, w2, w3, w4, w5⟩ :=
                ihps vis1 b vis2 (fun q hq => hps q (List.mem_cons_of_mem _ hq)) v2 v3 hcard1 hrun hb
              refine ⟨fun x hx => w1 (v1 hx), w2, w3, ?_, ?_⟩
              · intro q hq
                rcases List.mem_cons.mp hq with rfl | hq
                · exact w1 v4
                · exact w4 q hq
              · intro x hx hxvis
                by_cases hx1 : x ∈ vis1
                · obtain ⟨hxt, hxc⟩ := v5 x hx1 hxvis
                  exact ⟨hxt, fun y hy => w1 (hxc y hy)⟩
                · exact w5 x hx hx1
            · cases hrun
              simp at hb
    intro nd vis b vis2 hnd hndv hnodup hvisU hcard hrun hb
    rw [dfsVisit] at hrun
    by_cases hnt : nd = target
    · rw [if_pos hnt] at hrun
      cases hrun
      simp at hb
    · rw [if_neg hnt] at hrun
      have hcard1 : (U.toFinset \ (nd :: vis).toFinset).card < fuel := by
        have := sdiff_card_lt_of_cons hnd hndv
        omega
      have hnodup1 : (nd :: vis).Nodup := List.nodup_cons.mpr ⟨hndv, hnodup⟩
      have hvisU1 : ∀ x ∈ nd :: vis, x ∈ U := by
        intro x hx
        rcases List.mem_cons.mp hx with rfl | hx
        · exact hnd
        · exact hvisU x hx
      obtain ⟨w1, w2, w3, w4, w5⟩ :=
        hfold (adj nd) (nd :: vis) b vis2 (hadj nd) hnodup1 hvisU1 hcard1 hrun hb
      refine ⟨fun x hx => w1 (List.mem_cons_of_mem _ hx), w2, w3,
        w1 (List.mem_cons_self _ _), ?_⟩
      intro x hx hxvis
      by_cases hxnd : x = nd
      · subst hxnd
        exact ⟨hnt, fun y hy => w4 y hy⟩
      · have hxnv : x ∉ nd :: vis := by simp [hxnd, hxvis]
        exact w5 x hx hxnv

/-- If the start lies in a universe closed under the adjacency function and
fuel exceeds the universe size, a reachable target is always found. -/
theorem dfsVisit_complete {adj : Val → List Val} {target : Val} {U : List Val}
    (hadj : ∀ x, ∀ y ∈ adj x, y ∈ U) {s : Val} (hs : s ∈ U) {fuel : Nat}
    (hfuel : U.toFinset.card < fuel)
    (hreach : Relation.ReflTransGen (AdjStep adj) s target) :
    (dfsVisit adj target fuel s []).1 = true := by
  cases hrun : dfsVisit adj target fuel s [] with
  | mk b vis2 =>
    cases b
    · exfalso
      have hcard : (U.toFinset \ ([] : List Val).toFinset).card < fuel := by
        simpa using hfuel
      obtain ⟨_, _, _, hsmem, hclosed⟩ :=
        dfs_false_spec hadj fuel s [] false vis2 hs (by simp) (by simp) (by simp) hcard hrun rfl
      have hall : ∀ y, Relation.ReflTransGen (AdjStep adj) s y → y ∈ vis2 := by
        intro y hy
        induction hy with
        | refl => exact hsmem
        | tail hxy hstep ihy =>
          obtain ⟨hne, hcl⟩ := hclosed _ ihy (by simp)
          exact hcl _ hstep
      exact (hclosed target (hall target hreach) (by simp)).1 rfl
    · rfl

/-! ## Well-formedness accessors -/

theorem lookupNode_of_mem_of_nodup {l : List (Val × Node)} (hnd : (l.map Prod.fst).Nodup)
    {v : Val} {n : Node} (h : (v, n) ∈ l) : lookupNode l v = some n := by
  induction l with
  | nil => cases h
  | cons e rest ih =>
    obtain ⟨w, m⟩ := e
    simp only [List.map_cons, List.nodup_cons] at hnd
    rcases List.mem_cons.mp h with heq | hmem
    · cases heq
      simp [lookupNode]
    · have hvw : v ≠ w := by
        rintro rfl
        exact hnd.1 (List.mem_map.mpr ⟨(v, n), hmem, rfl⟩)
      simp [lookupNode, hvw]
      exact ih hnd.2 hmem

theorem WF.parentsOf_nodup {g : DAG} (hwf : WF g) (v : Val) : (parentsOf g v).Nodup := by
  cases hl : lookupNode g.nodes v with
  | none => rw [parentsOf_eq_none hl]; exact List.nodup_nil
  | some n => rw [parentsOf_eq_some hl]; exact (hwf.2 _ (lookupNode_mem hl)).1

theorem WF.childrenOf_nodup {g : DAG} (hwf : WF g) (v : Val) : (childrenOf g v).Nodup := by
  cases hl : lookupNode g.nodes v with
  | none => rw [childrenOf_eq_none hl]; exact List.nodup_nil
  | some n => rw [childrenOf_eq_some hl]; exact (hwf.2 _ (lookupNode_mem hl)).2.1

theorem WF.parentsOf_subset {g : DAG} (hwf : WF g) {v p : Val}
    (hp : p ∈ parentsOf g v) : p ∈ g.keys := by
  cases hl : lookupNode g.nodes v with
  | none => rw [parentsOf_eq_none hl] at hp; cases hp
  | some n =>
    rw [parentsOf_eq_some hl] at hp
    exact (hwf.2 _ (lookupNode_mem hl)).2.2.1 p hp

theorem WF.childrenOf_subset {g : DAG} (hwf : WF g) {v c : Val}
    (hc : c ∈ childrenOf g v) : c ∈ g.keys := by
  cases hl : lookupNode g.nodes v with
  | none => rw [childrenOf_eq_none hl] at hc; cases hc
  | some n =>
    rw [childrenOf_eq_some hl] at hc
    exact (hwf.2 _ (lookupNode_mem hl)).2.2.2 c hc

/-- Rebuild `WF` from keys-nodup plus pointwise adjacency facts. -/
theorem wf_of_props {g : DAG} (hk : g.keys.Nodup)
    (hprops : ∀ v, (parentsOf g v).Nodup ∧ (childrenOf g v).Nodup ∧
      (∀ p ∈ parentsOf g v, p ∈ g.keys) ∧ (∀ c ∈ childrenOf g v, c ∈ g.keys)) :
    WF g := by
  refine ⟨hk, ?_⟩
  intro e he
  have hl : lookupNode g.nodes e.1 = some e.2 := by
    apply lookupNode_of_mem_of_nodup hk
    cases e; exact he
  have h := hprops e.1
  rw [parentsOf_eq_some hl, childrenOf_eq_some hl] at h
  exact h

theorem keys_toFinset_card_lt {g : DAG} (hwf : WF g) :
    g.keys.toFinset.card < g.nodes.length + 1 := by
  have h1 : g.keys.toFinset.card = g.keys.length := List.toFinset_card_of_nodup hwf.1
  have h2 : g.keys.length = g.nodes.length := List.length_map _ _
  omega

/-! ## `hasAncestor` and `hasPath` compute reachability -/

theorem hasAncestor_eq_true_iff {g : DAG} (hwf : WF g) {n anc : Val} (hn : n ∈ g.keys) :
    hasAncestor g n anc = true ↔
      Relation.ReflTransGen (fun x y => y ∈ parentsOf g x) n anc := by
  have hadj : ∀ x, ∀ y ∈ Parents g x, y ∈ g.keys := by
    intro x y hy
    exact hwf.parentsOf_subset (mem_Parents.mp hy)
  have hcongr : ∀ a b : Val, AdjStep (Parents g) a b ↔ (fun x y => y ∈ parentsOf g x) a b := by
    intro a b
    exact mem_Parents
  constructor
  · intro h
    exact (reflTransGen_congr hcongr).mp (dfsVisit_sound _ _ _ h)
  · intro h
    exact dfsVisit_complete hadj hn (keys_toFinset_card_lt hwf)
      ((reflTransGen_congr hcongr).mpr h)

theorem hasAncestor_iff_ancestor {g : DAG} (hwf : WF g) {n anc : Val} (hn : n ∈ g.keys) :
    hasAncestor g n anc = true ↔ (anc = n ∨ Ancestor g anc n) := by
  rw [hasAncestor_eq_true_iff hwf hn]
  have hswap : ∀ a b : Val, (fun x y => y ∈ parentsOf g x) a b ↔
      Function.swap (ParentOf g) a b := fun a b => Iff.rfl
  rw [reflTransGen_congr hswap, Relation.reflTransGen_swap,
    Relation.reflTransGen_iff_eq_or_transGen]
  unfold Ancestor
  constructor
  · rintro (rfl | h)
    · exact Or.inl rfl
    · exact Or.inr h
  · rintro (rfl | h)
    · exact Or.inl rfl
    · exact Or.inr h

theorem hasAncestor_self (g : DAG) (n : Val) : hasAncestor g n n = true := by
  unfold hasAncestor
  rw [dfsVisit]
  simp

theorem hasPath_self {g : DAG} {v : Val} (hv : v ∈ g.keys) : hasPath g v v = true := by
  obtain ⟨n, hn⟩ := exists_lookup_of_mem_keys hv
  unfold hasPath
  rw [hn]
  show (dfsVisit (Children g) v (g.nodes.length + 1) v []).1 = true
  rw [dfsVisit]
  simp

/-! ## The invariant is preserved by every operation -/

theorem acyclic_of_no_edge {g : DAG} (h : ∀ a b, ¬ EdgeMem g a b) : Acyclic g := by
  intro v hv
  cases hv with
  | single h1 => exact h _ _ h1
  | tail h1 h2 => exact h _ _ h2

theorem graphInv_empty : GraphInv NewDAG := by
  refine ⟨⟨List.nodup_nil, ?_⟩, ?_, ?_⟩
  · intro e he; cases he
  · intro x y
    rw [childrenOf_eq_none (show lookupNode NewDAG.nodes x = none from rfl),
      parentsOf_eq_none (show lookupNode NewDAG.nodes y = none from rfl)]
    simp
  · apply acyclic_of_no_edge
    intro a b hab
    rw [EdgeMem, childrenOf_eq_none (show lookupNode NewDAG.nodes a = none from rfl)] at hab
    cases hab

theorem keys_addNode_nodup {g : DAG} {v : Val} (h : g.keys.Nodup) :
    (addNode g v).2.keys.Nodup := by
  rw [keys_addNode]
  by_cases hv : v ∈ g.keys
  · rw [if_pos hv]; exact h
  · rw [if_neg hv]; exact List.nodup_cons.mpr ⟨hv, h⟩

theorem wf_addNode {g : DAG} {v : Val} (hwf : WF g) : WF (addNode g v).2 := by
  apply wf_of_props (keys_addNode_nodup hwf.1)
  intro w
  rw [parentsOf_addNode, childrenOf_addNode]
  refine ⟨hwf.parentsOf_nodup w, hwf.childrenOf_nodup w, ?_, ?_⟩
  · intro p hp
    rw [mem_keys_addNode]
    exact Or.inr (hwf.parentsOf_subset hp)
  · intro c hc
    rw [mem_keys_addNode]
    exact Or.inr (hwf.childrenOf_subset hc)

theorem mutual_addNode {g : DAG} {v : Val} (hm : Mutual g) : Mutual (addNode g v).2 := by
  intro x y
  rw [childrenOf_addNode, parentsOf_addNode]
  exact hm x y

theorem edgeMem_addNode_iff {g : DAG} {v a b : Val} :
    EdgeMem (addNode g v).2 a b ↔ EdgeMem g a b := by
  rw [EdgeMem, EdgeMem, childrenOf_addNode]

theorem acyclic_addNode {g : DAG} {v : Val} (ha : Acyclic g) : Acyclic (addNode g v).2 := by
  intro w hw
  exact ha w ((transGen_congr (fun a b => edgeMem_addNode_iff)).mp hw)

theorem graphInv_addNode {g : DAG} {v : Val} (h : GraphInv g) : GraphInv (addNode g v).2 :=
  ⟨wf_addNode h.1, mutual_addNode h.2.1, acyclic_addNode h.2.2⟩

theorem transGen_union_aux {r : Val → Val → Prop} {f t : Val} {a b : Val}
    (h : Relation.TransGen (fun x y => r x y ∨ (x = f ∧ y = t)) a b) :
    Relation.TransGen r a b ∨
      (Relation.ReflTransGen r a f ∧ Relation.ReflTransGen r t b) := by
  induction h with
  | single h1 =>
    rcases h1 with h1 | ⟨rfl, rfl⟩
    · exact Or.inl (Relation.TransGen.single h1)
    · exact Or.inr ⟨Relation.ReflTransGen.refl, Relation.ReflTransGen.refl⟩
  | tail hab hbc ih =>
    rcases hbc with hbc | ⟨rfl, rfl⟩
    · rcases ih with ih | ⟨ih1, ih2⟩
      · exact Or.inl (ih.tail hbc)
      · exact Or.inr ⟨ih1, ih2.tail hbc⟩
    · rcases ih with ih | ⟨ih1, ih2⟩
      · exact Or.inr ⟨ih.to_reflTransGen, Relation.ReflTransGen.refl⟩
      · exact Or.inr ⟨ih1, Relation.ReflTransGen.refl⟩

theorem edgeMem_addEdge_ok_iff {g : DAG} {f t : Val}
    (h : hasAncestor (addNode (addNode g f).2 t).2 f t = false) (a b : Val) :
    EdgeMem (addEdge g f t).2 a b ↔ EdgeMem g a b ∨ (a = f ∧ b = t) := by
  rw [EdgeMem, EdgeMem, childrenOf_addEdge_ok h]
  by_cases haf : a = f
  · subst haf
    rw [if_pos rfl, List.mem_insert_iff]
    constructor
    · rintro (rfl | hb)
      · exact Or.inr ⟨rfl, rfl⟩
      · exact Or.inl hb
    · rintro (hb | ⟨-, rfl⟩)
      · exact Or.inr hb
      · exact Or.inl rfl
  · rw [if_neg haf]
    constructor
    · exact Or.inl
    · rintro (hb | ⟨rfl, rfl⟩)
      · exact hb
      · exact absurd rfl haf

/-- Downward reachability is the converse of upward (parent-link)
reachability, given mutuality. -/
theorem reflTransGen_parent_swap {g : DAG} (hm : Mutual g) {a b : Val} :
    Relation.ReflTransGen (fun x y => y ∈ parentsOf g x) a b ↔ Reaches g b a := by
  have h1 : ∀ x y : Val, (fun x y => y ∈ parentsOf g x) x y ↔
      Function.swap (EdgeMem g) x y := by
    intro x y
    rw [Function.swap]
    show y ∈ parentsOf g x ↔ EdgeMem g y x
    rw [EdgeMem, ← hm y x]
  rw [reflTransGen_congr h1, Relation.reflTransGen_swap]
  exact Iff.rfl

theorem acyclic_addEdge_ok {g : DAG} {f t : Val} (hwf : WF g) (hm : Mutual g)
    (ha : Acyclic g)
    (h : hasAncestor (addNode (addNode g f).2 t).2 f t = false) :
    Acyclic (addEdge g f t).2 := by
  -- the failed check gives: no upward chain from f reaches t in g
  have hwf2 : WF (addNode (addNode g f).2 t).2 := wf_addNode (wf_addNode hwf)
  have hf2 : f ∈ (addNode (addNode g f).2 t).2.keys := mem_keys_addEdge_base_left g f t
  have hnot : ¬ Relation.ReflTransGen
      (fun x y => y ∈ parentsOf (addNode (addNode g f).2 t).2 x) f t := by
    intro hc
    rw [← hasAncestor_eq_true_iff hwf2 hf2] at hc
    rw [hc] at h
    cases h
  have hnotg : ¬ Relation.ReflTransGen (fun x y => y ∈ parentsOf g x) f t := by
    intro hc
    apply hnot
    apply (reflTransGen_congr ?_).mp hc
    intro a b
    rw [parentsOf_addNode, parentsOf_addNode]
  have hnotReach : ¬ Reaches g t f := fun hc =>
    hnotg ((reflTransGen_parent_swap hm).mpr hc)
  intro v hv
  have hv2 : Relation.TransGen (fun x y => EdgeMem g x y ∨ (x = f ∧ y = t)) v v :=
    (transGen_congr (fun a b => edgeMem_addEdge_ok_iff h a b)).mp hv
  rcases transGen_union_aux hv2 with hcyc | ⟨h1, h2⟩
  · exact ha v hcyc
  · exact hnotReach (h2.trans h1)

theorem wf_addEdge_ok {g : DAG} {f t : Val} (hwf : WF g)
    (h : hasAncestor (addNode (addNode g f).2 t).2 f t = false) :
    WF (addEdge g f t).2 := by
  have hwf2 : WF (addNode (addNode g f).2 t).2 := wf_addNode (wf_addNode hwf)
  have hkeys : (addEdge g f t).2.keys = (addNode (addNode g f).2 t).2.keys := keys_addEdge
  have hmemkeys : ∀ w, w ∈ g.keys → w ∈ (addEdge g f t).2.keys := by
    intro w hw
    rw [hkeys, mem_keys_addNode, mem_keys_addNode]
    exact Or.inr (Or.inr hw)
  apply wf_of_props (by rw [hkeys]; exact hwf2.1)
  intro w
  rw [parentsOf_addEdge_ok h, childrenOf_addEdge_ok h]
  refine ⟨?_, ?_, ?_, ?_⟩
  · by_cases hwt : w = t
    · rw [if_pos hwt]; exact (hwf.parentsOf_nodup t).insert
    · rw [if_neg hwt]; exact hwf.parentsOf_nodup w
  · by_cases hwff : w = f
    · rw [if_pos hwff]; exact (hwf.childrenOf_nodup f).insert
    · rw [if_neg hwff]; exact hwf.childrenOf_nodup w
  · intro p hp
    by_cases hwt : w = t
    · rw [if_pos hwt, List.mem_insert_iff] at hp
      rcases hp with rfl | hp
      · rw [hkeys]; exact mem_keys_addEdge_base_left g p t
      · exact hmemkeys p (hwf.parentsOf_subset hp)
    · rw [if_neg hwt] at hp
      exact hmemkeys p (hwf.parentsOf_subset hp)
  · intro c hc
    by_cases hwff : w = f
    · rw [if_pos hwff, List.mem_insert_iff] at hc
      rcases hc with rfl | hc
      · rw [hkeys]; exact mem_keys_addEdge_base_right g f c
      · exact hmemkeys c (hwf.childrenOf_subset hc)
    · rw [if_neg hwff] at hc
      exact hmemkeys c (hwf.childrenOf_subset hc)

theorem mutual_addEdge_ok {g : DAG} {f t : Val} (hm : Mutual g)
    (h : hasAncestor (addNode (addNode g f).2 t).2 f t = false) :
    Mutual (addEdge g f t).2 := by
  intro x y
  rw [childrenOf_addEdge_ok h, parentsOf_addEdge_ok h]
  by_cases hxf : x = f
  · subst hxf
    by_cases hyt : y = t
    · subst hyt
      rw [if_pos rfl, if_pos rfl]
      simp [List.mem_insert_iff]
    · rw [if_pos rfl, if_neg hyt, List.mem_insert_iff]
      constructor
      · rintro (rfl | hy)
        · exact absurd rfl hyt
        · exact (hm x y).mp hy
      · intro hx
        exact Or.inr ((hm x y).mpr hx)
  · by_cases hyt : y = t
    · subst hyt
      rw [if_neg hxf, if_pos rfl, List.mem_insert_iff]
      constructor
      · intro hy
        exact Or.inr ((hm x y).mp hy)
      · rintro (rfl | hx)
        · exact absurd rfl hxf
        · exact (hm x y).mpr hx
    · rw [if_neg hxf, if_neg hyt]
      exact hm x y

theorem graphInv_addEdge {g : DAG} {f t : Val} (h : GraphInv g) :
    GraphInv (addEdge g f t).2 := by
  cases hha : hasAncestor (addNode (addNode g f).2 t).2 f t
  · exact ⟨wf_addEdge_ok h.1 hha, mutual_addEdge_ok h.2.1 hha,
      acyclic_addEdge_ok h.1 h.2.1 h.2.2 hha⟩
  · rw [addEdge_eq_error hha]
    exact graphInv_addNode (graphInv_addNode h)

theorem mutual_removeNode {g : DAG} {v : Val} (hwf : WF g) (hm : Mutual g) :
    Mutual (removeNode g v) := by
  cases hn : lookupNode g.nodes v with
  | none => rw [removeNode_of_absent hn]; exact hm
  | some n =>
    intro x y
    by_cases hxv : x = v
    · rw [hxv, childrenOf_removeNode_self]
      by_cases hyv : y = v
      · rw [hyv, parentsOf_removeNode_self]
      · rw [parentsOf_removeNode hn hyv]
        constructor
        · intro h; cases h
        · intro h
          exfalso
          by_cases hyc : y ∈ n.children
          · rw [if_pos hyc] at h
            exact ((List.Nodup.mem_erase_iff (hwf.parentsOf_nodup y)).mp h).1 rfl
          · rw [if_neg hyc] at h
            have hy : y ∈ childrenOf g v := (hm v y).mpr h
            rw [childrenOf_eq_some hn] at hy
            exact hyc hy
    · by_cases hyv : y = v
      · rw [hyv, parentsOf_removeNode_self, childrenOf_removeNode hn hxv]
        constructor
        · intro h
          exfalso
          by_cases hxp : x ∈ n.parents
          · rw [if_pos hxp] at h
            exact ((List.Nodup.mem_erase_iff (hwf.childrenOf_nodup x)).mp h).1 rfl
          · rw [if_neg hxp] at h
            have hx : x ∈ parentsOf g v := (hm x v).mp h
            rw [parentsOf_eq_some hn] at hx
            exact hxp hx
        · intro h; cases h
      · rw [childrenOf_removeNode hn hxv, parentsOf_removeNode hn hyv]
        have hyl : y ∈ (childrenOf g x).erase v ↔ y ∈ childrenOf g x := by
          rw [List.Nodup.mem_erase_iff (hwf.childrenOf_nodup x)]
          simp [hyv]
        have hxl : x ∈ (parentsOf g y).erase v ↔ x ∈ parentsOf g y := by
          rw [List.Nodup.mem_erase_iff (hwf.parentsOf_nodup y)]
          simp [hxv]
        by_cases hxp : x ∈ n.parents
        · rw [if_pos hxp]
          by_cases hyc : y ∈ n.children
          · rw [if_pos hyc, hyl, hxl]; exact hm x y
          · rw [if_neg hyc, hyl]; exact hm x y
        · rw [if_neg hxp]
          by_cases hyc : y ∈ n.children
          · rw [if_pos hyc, hxl]; exact hm x y
          · rw [if_neg hyc]; exact hm x y

theorem wf_removeNode {g : DAG} {v : Val} (hwf : WF g) (hm : Mutual g) :
    WF (removeNode g v) := by
  cases hn : lookupNode g.nodes v with
  | none => rw [removeNode_of_absent hn]; exact hwf
  | some n =>
    apply wf_of_props
    · rw [keys_removeNode_present hn]; exact hwf.1.filter _
    intro w
    by_cases hwv : w = v
    · subst hwv
      rw [parentsOf_removeNode_self, childrenOf_removeNode_self]
      simp
    · rw [parentsOf_removeNode hn hwv, childrenOf_removeNode hn hwv]
      have hkeys : ∀ u, u ∈ g.keys → u ≠ v → u ∈ (removeNode g v).keys := by
        intro u hu huv
        rw [keys_removeNode_present hn, List.mem_filter]
        exact ⟨hu, by simp [huv]⟩
      refine ⟨?_, ?_, ?_, ?_⟩
      · by_cases hc : w ∈ n.children
        · rw [if_pos hc]; exact (hwf.parentsOf_nodup w).erase _
        · rw [if_neg hc]; exact hwf.parentsOf_nodup w
      · by_cases hp : w ∈ n.parents
        · rw [if_pos hp]; exact (hwf.childrenOf_nodup w).erase _
        · rw [if_neg hp]; exact hwf.childrenOf_nodup w
      · intro p hp
        by_cases hc : w ∈ n.children
        · rw [if_pos hc] at hp
          obtain ⟨hpv, hp⟩ := (List.Nodup.mem_erase_iff (hwf.parentsOf_nodup w)).mp hp
          exact hkeys p (hwf.parentsOf_subset hp) hpv
        · rw [if_neg hc] at hp
          have hpv : p ≠ v := by
            rintro rfl
            have hw : w ∈ childrenOf g p := (hm p w).mpr hp
            rw [childrenOf_eq_some hn] at hw
            exact hc hw
          exact hkeys p (hwf.parentsOf_subset hp) hpv
      · intro c hc
        by_cases hp : w ∈ n.parents
        · rw [if_pos hp] at hc
          obtain ⟨hcv, hc⟩ := (List.Nodup.mem_erase_iff (hwf.childrenOf_nodup w)).mp hc
          exact hkeys c (hwf.childrenOf_subset hc) hcv
        · rw [if_neg hp] at hc
          have hcv : c ≠ v := by
            rintro rfl
            have hw : w ∈ parentsOf g c := (hm w c).mp hc
            rw [parentsOf_eq_some hn] at hw
            exact hp hw
          exact hkeys c (hwf.childrenOf_subset hc) hcv

theorem edgeMem_removeNode {g : DAG} {v a b : Val}
    (h : EdgeMem (removeNode g v) a b) : EdgeMem g a b := by
  cases hn : lookupNode g.nodes v with
  | none => rwa [removeNode_of_absent hn] at h
  | some n =>
    rw [EdgeMem] at h ⊢
    by_cases hav : a = v
    · subst hav; rw [childrenOf_removeNode_self] at h; cases h
    · rw [childrenOf_removeNode hn hav] at h
      by_cases hp : a ∈ n.parents
      · rw [if_pos hp] at h; exact List.mem_of_mem_erase h
      · rwa [if_neg hp] at h

theorem acyclic_removeNode {g : DAG} {v : Val} (ha : Acyclic g) :
    Acyclic (removeNode g v) := by
  intro w hw
  exact ha w (hw.mono (fun {a b} hab => edgeMem_removeNode hab))

theorem graphInv_removeNode {g : DAG} {v : Val} (h : GraphInv g) :
    GraphInv (removeNode g v) :=
  ⟨wf_removeNode h.1 h.2.1, mutual_removeNode h.1 h.2.1, acyclic_removeNode h.2.2⟩

theorem mutual_removeEdge {g : DAG} {f t : Val} (hwf : WF g) (hm : Mutual g) :
    Mutual (removeEdge g f t) := by
  cases hf : lookupNode g.nodes f with
  | none =>
    have : removeEdge g f t = g := by
      unfold removeEdge
      rw [hf]
    rw [this]; exact hm
  | some nf =>
    cases ht : lookupNode g.nodes t with
    | none =>
      have : removeEdge g f t = g := by
        unfold removeEdge
        rw [hf, ht]
      rw [this]; exact hm
    | some nt =>
      intro x y
      rw [childrenOf_removeEdge hf ht, parentsOf_removeEdge hf ht]
      by_cases hxf : x = f
      · subst hxf
        by_cases hyt : y = t
        · subst hyt
          rw [if_pos rfl, if_pos rfl]
          rw [List.Nodup.mem_erase_iff (hwf.childrenOf_nodup x),
            List.Nodup.mem_erase_iff (hwf.parentsOf_nodup y)]
          simp
        · rw [if_pos rfl, if_neg hyt,
            List.Nodup.mem_erase_iff (hwf.childrenOf_nodup x)]
          simp [hyt, hm x y]
      · by_cases hyt : y = t
        · subst hyt
          rw [if_neg hxf, if_pos rfl,
            List.Nodup.mem_erase_iff (hwf.parentsOf_nodup y)]
          simp [hxf, hm x y]
        · rw [if_neg hxf, if_neg hyt]
          exact hm x y

theorem wf_removeEdge {g : DAG} {f t : Val} (hwf : WF g) : WF (removeEdge g f t) := by
  cases hf : lookupNode g.nodes f with
  | none =>
    have : removeEdge g f t = g := by
      unfold removeEdge; rw [hf]
    rw [this]; exact hwf
  | some nf =>
    cases ht : lookupNode g.nodes t with
    | none =>
      have : removeEdge g f t = g := by
        unfold removeEdge; rw [hf, ht]
      rw [this]; exact hwf
    | some nt =>
      apply wf_of_props
      · rw [keys_removeEdge]; exact hwf.1
      intro w
      rw [parentsOf_removeEdge hf ht, childrenOf_removeEdge hf ht, keys_removeEdge]
      refine ⟨?_, ?_, ?_, ?_⟩
      · by_cases hwt : w = t
        · rw [if_pos hwt]; exact (hwf.parentsOf_nodup t).erase _
        · rw [if_neg hwt]; exact hwf.parentsOf_nodup w
      · by_cases hwff : w = f
        · rw [if_pos hwff]; exact (hwf.childrenOf_nodup f).erase _
        · rw [if_neg hwff]; exact hwf.childrenOf_nodup w
      · intro p hp
        by_cases hwt : w = t
        · rw [if_pos hwt] at hp
          exact hwf.parentsOf_subset (List.mem_of_mem_erase hp)
        · rw [if_neg hwt] at hp
          exact hwf.parentsOf_subset hp
      · intro c hc
        by_cases hwff : w = f
        · rw [if_pos hwff] at hc
          exact hwf.childrenOf_subset (List.mem_of_mem_erase hc)
        · rw [if_neg hwff] at hc
          exact hwf.childrenOf_subset hc

theorem edgeMem_removeEdge {g : DAG} {f t a b : Val}
    (h : EdgeMem (removeEdge g f t) a b) : EdgeMem g a b := by
  cases hf : lookupNode g.nodes f with
  | none =>
    have heq : removeEdge g f t = g := by
      unfold removeEdge; rw [hf]
    rwa [heq] at h
  | some nf =>
    cases ht : lookupNode g.nodes t with
    | none =>
      have heq : removeEdge g f t = g := by
        unfold removeEdge; rw [hf, ht]
      rwa [heq] at h
    | some nt =>
      rw [EdgeMem] at h ⊢
      rw [childrenOf_removeEdge hf ht] at h
      by_cases haf : a = f
      · rw [if_pos haf] at h
        rw [haf]
        exact List.mem_of_mem_erase h
      · rwa [if_neg haf] at h

theorem acyclic_removeEdge {g : DAG} {f t : Val} (ha : Acyclic g) :
    Acyclic (removeEdge g f t) := by
  intro w hw
  exact ha w (hw.mono (fun {a b} hab => edgeMem_removeEdge hab))

theorem graphInv_removeEdge {g : DAG} {f t : Val} (h : GraphInv g) :
    GraphInv (removeEdge g f t) :=
  ⟨wf_removeEdge h.1, mutual_removeEdge h.1 h.2.1, acyclic_removeEdge h.2.2⟩

theorem graphInv_clear {g : DAG} : GraphInv (clear g) :=
  graphInv_empty

/-- Every graph reachable through the public mutation surface satisfies the
combined invariant: well-formed index, mutual adjacency, and acyclicity. -/
theorem reachable_graphInv {g : DAG} (h : Reachable g) : GraphInv g := by
  induction h with
  | empty => exact graphInv_empty
  | addNode v hg ih => exact graphInv_addNode ih
  | addEdge f t hg ih => exact graphInv_addEdge ih
  | removeNode v hg ih => exact graphInv_removeNode ih
  | removeEdge f t hg ih => exact graphInv_removeEdge ih
  | clear hg ih => exact graphInv_clear

/-! ## A finite set in which everyone has a predecessor contains a cycle -/

theorem cycle_of_pred_in_list {r : Val → Val → Prop} {U : List Val} (hne : U ≠ [])
    (h : ∀ u ∈ U, ∃ p ∈ U, r p u) : ∃ v, Relation.TransGen r v v := by
  have hchoice : ∀ u : {x // x ∈ U}, ∃ p : {x // x ∈ U}, r p.1 u.1 := by
    intro u
    obtain ⟨p, hp, hr⟩ := h u.1 u.2
    exact ⟨⟨p, hp⟩, hr⟩
  obtain ⟨u0, hu0⟩ := List.exists_mem_of_ne_nil U hne
  let F : Nat → {x // x ∈ U} :=
    fun k => Nat.rec ⟨u0, hu0⟩ (fun _ prev => Classical.choose (hchoice prev)) k
  have hF : ∀ k, r (F (k + 1)).1 (F k).1 := fun k => Classical.choose_spec (hchoice (F k))
  have hchain : ∀ i k, Relation.TransGen r (F (i + k + 1)).1 (F i).1 := by
    intro i k
    induction k with
    | zero => exact Relation.TransGen.single (hF i)
    | succ k ih => exact Relation.TransGen.head (hF (i + k + 1)) ih
  have hmap : ∀ i ∈ Finset.range (U.length + 1), (F i).1 ∈ U.toFinset := by
    intro i _
    exact List.mem_toFinset.mpr (F i).2
  have hcard : U.toFinset.card < (Finset.range (U.length + 1)).card := by
    rw [Finset.card_range]
    have := List.toFinset_card_le U
    omega
  obtain ⟨i, hi, j, hj, hij, heq⟩ :=
    Finset.exists_ne_map_eq_of_card_lt_of_maps_to hcard hmap
  rcases lt_or_gt_of_ne hij with hlt | hgt
  · obtain ⟨k, rfl⟩ : ∃ k, j = i + k + 1 := ⟨j - i - 1, by omega⟩
    refine ⟨(F i).1, ?_⟩
    have hc := hchain i k
    rw [← heq] at hc
    exact hc
  · obtain ⟨k, rfl⟩ : ∃ k, i = j + k + 1 := ⟨i - j - 1, by omega⟩
    refine ⟨(F j).1, ?_⟩
    have hc := hchain j k
    rw [heq] at hc
    exact hc

/-! ## List helpers for the Kahn loop -/

theorem perm_of_nodup_nodup_subset {l1 l2 : List Val} (h1 : l1.Nodup) (h2 : l2.Nodup)
    (s1 : l1 ⊆ l2) (s2 : l2 ⊆ l1) : List.Perm l1 l2 :=
  (List.subperm_of_subset h1 s1).antisymm (List.subperm_of_subset h2 s2)

theorem sublist_pair_append {s : List Val} {a v : Val} (ha : a ∈ s) :
    [a, v].Sublist (s ++ [v]) := by
  obtain ⟨s1, s2, rfl⟩ := List.append_of_mem ha
  have h1 : [a, v].Sublist (a :: (s2 ++ [v])) :=
    List.Sublist.cons₂ a (List.sublist_append_right s2 [v])
  have h2 : (a :: (s2 ++ [v])).Sublist (s1 ++ (a :: (s2 ++ [v]))) :=
    List.sublist_append_right s1 _
  have heq : s1 ++ (a :: (s2 ++ [v])) = (s1 ++ a :: s2) ++ [v] := by
    simp
  rw [← heq]
  exact h1.trans h2

theorem nodup_eq_singleton {l : List Val} {v : Val} (hn : l.Nodup) (hall : ∀ x ∈ l, x = v)
    (hv : v ∈ l) : l = [v] := by
  cases l with
  | nil => cases hv
  | cons a rest =>
    have ha := hall a (List.mem_cons_self _ _)
    subst ha
    cases rest with
    | nil => rfl
    | cons b rest2 =>
      exfalso
      have hb := hall b (by simp)
      rw [List.nodup_cons] at hn
      exact hn.1 (by simp [hb])

theorem filter_snoc_of_not_mem {l s : List Val} {v : Val} (hv : v ∉ l) :
    l.filter (fun p => decide (p ∉ s ++ [v])) = l.filter (fun p => decide (p ∉ s)) := by
  apply List.filter_congr
  intro x hx
  have hxv : x ≠ v := fun h => hv (h ▸ hx)
  simp [List.mem_append, hxv]

theorem filter_snoc_of_mem {l : List Val} (hl : l.Nodup) {s : List Val} {v : Val}
    (hv : v ∈ l) (hvs : v ∉ s) :
    (l.filter (fun p => decide (p ∉ s))).length =
      (l.filter (fun p => decide (p ∉ s ++ [v]))).length + 1 := by
  induction l with
  | nil => cases hv
  | cons c cs ih =>
    rw [List.nodup_cons] at hl
    by_cases hcv : c = v
    · subst hcv
      simp only [List.filter_cons]
      rw [filter_snoc_of_not_mem hl.1]
      simp [hvs]
    · have hvcs : v ∈ cs := by
        rcases List.mem_cons.mp hv with rfl | h
        · exact absurd rfl hcv
        · exact h
      have ih2 := ih hl.2 hvcs
      by_cases hcs : c ∈ s
      · simp [List.filter_cons, List.mem_append, hcs, hcv] at ih2 ⊢
        omega
      · simp [List.filter_cons, List.mem_append, hcs, hcv] at ih2 ⊢
        omega

/-! ## Correctness of Kahn topological sort (`Traverse`) -/

theorem kahnStep_eq (deg : Val → Int) (acc : List Val) (c : Val) :
    kahnStep (deg, acc) c =
      (fun w => if w = c then deg c - 1 else deg w,
       if deg c - 1 = 0 then acc ++ [c] else acc) := by
  unfold kahnStep
  by_cases h : deg c - 1 = 0 <;> simp [h]

theorem kahnFold_spec : ∀ (l : List Val) (deg : Val → Int) (acc : List Val), l.Nodup →
    l.foldl kahnStep (deg, acc) =
      (fun w => if w ∈ l then deg w - 1 else deg w,
       acc ++ l.filter (fun c => decide (deg c - 1 = 0))) := by
  intro l
  induction l with
  | nil =>
    intro deg acc h
    simp only [List.foldl_nil, List.filter_nil, List.append_nil]
    have h1 : (fun w => if w ∈ ([] : List Val) then deg w - 1 else deg w) = deg := by
      funext w; simp
    rw [h1]
  | cons c cs ih =>
    intro deg acc h
    rw [List.nodup_cons] at h
    rw [List.foldl_cons, kahnStep_eq, ih _ _ h.2]
    have hfun : (fun w => if w ∈ cs then (if w = c then deg c - 1 else deg w) - 1
        else (if w = c then deg c - 1 else deg w)) =
        (fun w => if w ∈ c :: cs then deg w - 1 else deg w) := by
      funext w
      by_cases hwc : w = c
      · subst hwc
        simp [h.1]
      · by_cases hwcs : w ∈ cs <;> simp [hwc, hwcs]
    have hfil : cs.filter (fun x => decide ((if x = c then deg c - 1 else deg x) - 1 = 0)) =
        cs.filter (fun x => decide (deg x - 1 = 0)) := by
      apply List.filter_congr
      intro x hx
      have hxc : x ≠ c := fun he => h.1 (he ▸ hx)
      simp [hxc]
    rw [hfun, hfil, List.filter_cons]
    by_cases hc : deg c - 1 = 0 <;> simp [hc]

theorem traverseLoop_spec {g : DAG} (hwf : WF g) (hm : Mutual g) (ha : Acyclic g) :
    ∀ fuel queue deg sorted,
      sorted.Nodup →
      queue.Nodup →
      (∀ v ∈ queue, v ∉ sorted) →
      (∀ v ∈ sorted, v ∈ g.keys) →
      (∀ v ∈ queue, v ∈ g.keys) →
      (∀ v ∈ g.keys, deg v =
        (((parentsOf g v).filter (fun p => decide (p ∉ sorted))).length : Int)) →
      (∀ v ∈ g.keys, ((v ∈ sorted ∨ v ∈ queue) ↔ ∀ p ∈ parentsOf g v, p ∈ sorted)) →
      (∀ b ∈ sorted, ∀ a ∈ parentsOf g b, [a, b].Sublist sorted) →
      g.keys.length - sorted.length < fuel →
      (∀ v, v ∈ g.keys ↔ v ∈ traverseLoop g fuel queue deg sorted) ∧
        (traverseLoop g fuel queue deg sorted).Nodup ∧
        (∀ b ∈ traverseLoop g fuel queue deg sorted, ∀ a ∈ parentsOf g b,
          [a, b].Sublist (traverseLoop g fuel queue deg sorted)) := by
  intro fuel
  induction fuel with
  | zero =>
    intro queue deg sorted _ _ _ _ _ _ _ _ hfuel
    omega
  | succ fuel ih =>
    intro queue deg sorted hsn hqn hdisj hsk hqk hdeg hS3 hS5 hfuel
    cases queue with
    | nil =>
      rw [traverseLoop]
      refine ⟨?_, hsn, hS5⟩
      intro v
      constructor
      · intro hv
        by_contra hvs
        have hvU : v ∈ g.keys.filter (fun u => decide (u ∉ sorted)) := by
          rw [List.mem_filter]
          exact ⟨hv, by simpa using hvs⟩
        have hUne : g.keys.filter (fun u => decide (u ∉ sorted)) ≠ [] := by
          intro h0
          rw [h0] at hvU
          cases hvU
        have hpred : ∀ u ∈ g.keys.filter (fun u => decide (u ∉ sorted)),
            ∃ p ∈ g.keys.filter (fun u => decide (u ∉ sorted)), ParentOf g p u := by
          intro u hu
          rw [List.mem_filter] at hu
          have hu1 : u ∈ g.keys := hu.1
          have hu2 : u ∉ sorted := by simpa using hu.2
          have hnp : ¬ ∀ p ∈ parentsOf g u, p ∈ sorted := by
            intro hp
            rcases (hS3 u hu1).mpr hp with h1 | h1
            · exact hu2 h1
            · cases h1
          push_neg at hnp
          obtain ⟨p, hp, hps⟩ := hnp
          refine ⟨p, ?_, hp⟩
          rw [List.mem_filter]
          exact ⟨hwf.parentsOf_subset hp, by simpa using hps⟩
        obtain ⟨w, hw⟩ := cycle_of_pred_in_list hUne hpred
        have hconv : Relation.TransGen (EdgeMem g) w w := by
          apply (transGen_congr ?_).mp hw
          intro a b
          rw [ParentOf, EdgeMem]
          exact (hm a b).symm
        exact ha w hconv
      · intro hv
        exact hsk v hv
    | cons v rest =>
      have hvq : v ∈ v :: rest := List.mem_cons_self _ _
      have hvkey : v ∈ g.keys := hqk v hvq
      have hvns : v ∉ sorted := hdisj v hvq
      have hvnr : v ∉ rest := (List.nodup_cons.mp hqn).1
      have hrestn : rest.Nodup := (List.nodup_cons.mp hqn).2
      have hChildNodup : (Children g v).Nodup := sortByRepr_nodup (hwf.childrenOf_nodup v)
      have hfold := kahnFold_spec (Children g v) deg [] hChildNodup
      have hstep : traverseLoop g (fuel + 1) (v :: rest) deg sorted =
          traverseLoop g fuel
            (rest ++ (Children g v).filter (fun c => decide (deg c - 1 = 0)))
            (fun w => if w ∈ Children g v then deg w - 1 else deg w)
            (sorted ++ [v]) := by
        rw [traverseLoop, hfold]
        rfl
      -- basic facts about the enqueued children
      have hnewQ_mem : ∀ c, c ∈ (Children g v).filter (fun c => decide (deg c - 1 = 0)) ↔
          (c ∈ childrenOf g v ∧ deg c - 1 = 0) := by
        intro c
        rw [List.mem_filter, mem_Children]
        simp
      have hnewQ_len1 : ∀ c ∈ (Children g v).filter (fun c => decide (deg c - 1 = 0)),
          c ∈ g.keys ∧
          ((parentsOf g c).filter (fun p => decide (p ∉ sorted))).length = 1 := by
        intro c hc
        rw [hnewQ_mem] at hc
        obtain ⟨hcc, hdc⟩ := hc
        have hck : c ∈ g.keys := hwf.childrenOf_subset hcc
        have hdegc := hdeg c hck
        refine ⟨hck, ?_⟩
        omega
      have hnewQ_fresh : ∀ c ∈ (Children g v).filter (fun c => decide (deg c - 1 = 0)),
          c ∉ sorted ∧ c ∉ v :: rest := by
        intro c hc
        obtain ⟨hck, hlen⟩ := hnewQ_len1 c hc
        have hnot : ¬ (c ∈ sorted ∨ c ∈ v :: rest) := by
          intro hcs
          have hp := (hS3 c hck).mp hcs
          have hzero : ((parentsOf g c).filter (fun p => decide (p ∉ sorted))).length = 0 := by
            rw [List.length_eq_zero, List.filter_eq_nil_iff]
            intro a hap
            simp [hp a hap]
          omega
        push_neg at hnot
        exact hnot
      have hnewQ_parents : ∀ c ∈ (Children g v).filter (fun c => decide (deg c - 1 = 0)),
          ∀ p ∈ parentsOf g c, p ∉ sorted → p = v := by
        intro c hc p hp hps
        obtain ⟨hck, hlen⟩ := hnewQ_len1 c hc
        rw [hnewQ_mem] at hc
        have hpf : p ∈ (parentsOf g c).filter (fun p => decide (p ∉ sorted)) := by
          rw [List.mem_filter]
          exact ⟨hp, by simpa using hps⟩
        have hvf : v ∈ (parentsOf g c).filter (fun p => decide (p ∉ sorted)) := by
          rw [List.mem_filter]
          exact ⟨(hm v c).mp hc.1, by simpa using hvns⟩
        obtain ⟨a, hae⟩ := List.length_eq_one.mp hlen
        rw [hae] at hpf hvf
        have h1 : p = a := by simpa using hpf
        have h2 : v = a := by simpa using hvf
        rw [h1, h2]
      -- invariant for the next iteration
      have hsn' : (sorted ++ [v]).Nodup := by
        apply List.Nodup.append hsn (List.nodup_singleton v)
        intro a hax hav
        rw [List.mem_singleton] at hav
        exact hvns (hav ▸ hax)
      have hqn' : (rest ++ (Children g v).filter (fun c => decide (deg c - 1 = 0))).Nodup := by
        apply List.Nodup.append hrestn (hChildNodup.filter _)
        intro a har hanew
        exact (hnewQ_fresh a hanew).2 (List.mem_cons_of_mem _ har)
      have hdisj' : ∀ w ∈ rest ++ (Children g v).filter (fun c => decide (deg c - 1 = 0)),
          w ∉ sorted ++ [v] := by
        intro w hw
        rw [List.mem_append, List.mem_singleton]
        rcases List.mem_append.mp hw with hw2 | hw2
        · push_neg
          refine ⟨hdisj w (List.mem_cons_of_mem _ hw2), ?_⟩
          rintro rfl
          exact hvnr hw2
        · push_neg
          obtain ⟨h1, h2⟩ := hnewQ_fresh w hw2
          refine ⟨h1, ?_⟩
          rintro rfl
          exact h2 (List.mem_cons_self _ _)
      have hsk' : ∀ w ∈ sorted ++ [v], w ∈ g.keys := by
        intro w hw
        rcases List.mem_append.mp hw with hw | hw
        · exact hsk w hw
        · rw [List.mem_singleton] at hw
          exact hw ▸ hvkey
      have hqk' : ∀ w ∈ rest ++ (Children g v).filter (fun c => decide (deg c - 1 = 0)),
          w ∈ g.keys := by
        intro w hw
        rcases List.mem_append.mp hw with hw | hw
        · exact hqk w (List.mem_cons_of_mem _ hw)
        · exact (hnewQ_len1 w hw).1
      have hdeg' : ∀ w ∈ g.keys, (fun w => if w ∈ Children g v then deg w - 1 else deg w) w =
          (((parentsOf g w).filter (fun p => decide (p ∉ sorted ++ [v]))).length : Int) := by
        intro w hwk
        show (if w ∈ Children g v then deg w - 1 else deg w) =
          (((parentsOf g w).filter (fun p => decide (p ∉ sorted ++ [v]))).length : Int)
        by_cases hwc : w ∈ Children g v
        · rw [if_pos hwc]
          have hvp : v ∈ parentsOf g w := (hm v w).mp (mem_Children.mp hwc)
          have hct := filter_snoc_of_mem (hwf.parentsOf_nodup w) hvp hvns
          have hdw := hdeg w hwk
          omega
        · rw [if_neg hwc]
          have hvp : v ∉ parentsOf g w := fun hc => hwc (mem_Children.mpr ((hm v w).mpr hc))
          rw [filter_snoc_of_not_mem hvp]
          exact hdeg w hwk
      have hS3' : ∀ w ∈ g.keys,
          ((w ∈ sorted ++ [v] ∨
            w ∈ rest ++ (Children g v).filter (fun c => decide (deg c - 1 = 0))) ↔
          ∀ p ∈ parentsOf g w, p ∈ sorted ++ [v]) := by
        intro w hwk
        constructor
        · intro hw
          rcases hw with hw | hw
          · rcases List.mem_append.mp hw with hw | hw
            · intro p hp
              exact List.mem_append.mpr (Or.inl ((hS3 w hwk).mp (Or.inl hw) p hp))
            · rw [List.mem_singleton] at hw
              subst hw
              intro p hp
              exact List.mem_append.mpr (Or.inl ((hS3 w hwk).mp (Or.inr hvq) p hp))
          · rcases List.mem_append.mp hw with hw | hw
            · intro p hp
              exact List.mem_append.mpr
                (Or.inl ((hS3 w hwk).mp (Or.inr (List.mem_cons_of_mem _ hw)) p hp))
            · intro p hp
              by_cases hps : p ∈ sorted
              · exact List.mem_append.mpr (Or.inl hps)
              · have hpv := hnewQ_parents w hw p hp hps
                rw [hpv]
                exact List.mem_append.mpr (Or.inr (List.mem_singleton_self v))
        · intro hpall
          by_cases hall : ∀ p ∈ parentsOf g w, p ∈ sorted
          · rcases (hS3 w hwk).mpr hall with h1 | h1
            · exact Or.inl (List.mem_append.mpr (Or.inl h1))
            · rcases List.mem_cons.mp h1 with rfl | h1
              · exact Or.inl (List.mem_append.mpr (Or.inr (List.mem_singleton_self w)))
              · exact Or.inr (List.mem_append.mpr (Or.inl h1))
          · push_neg at hall
            obtain ⟨p0, hp0, hp0s⟩ := hall
            have hp0v : p0 = v := by
              have h2 := hpall p0 hp0
              rcases List.mem_append.mp h2 with h2 | h2
              · exact absurd h2 hp0s
              · rwa [List.mem_singleton] at h2
            subst hp0v
            refine Or.inr (List.mem_append.mpr (Or.inr ?_))
            rw [hnewQ_mem]
            refine ⟨(hm p0 w).mpr hp0, ?_⟩
            have hdegw := hdeg w hwk
            have hfe : (parentsOf g w).filter (fun p => decide (p ∉ sorted)) = [p0] := by
              apply nodup_eq_singleton ((hwf.parentsOf_nodup w).filter _)
              · intro x hx
                rw [List.mem_filter] at hx
                have h2 := hpall x hx.1
                rcases List.mem_append.mp h2 with h2 | h2
                · exact absurd h2 (by simpa using hx.2)
                · rwa [List.mem_singleton] at h2
              · rw [List.mem_filter]
                exact ⟨hp0, by simpa using hp0s⟩
            rw [hfe] at hdegw
            simp at hdegw
            omega
      have hS5' : ∀ b ∈ sorted ++ [v], ∀ a ∈ parentsOf g b,
          [a, b].Sublist (sorted ++ [v]) := by
        intro b hb a hab
        rcases List.mem_append.mp hb with hb | hb
        · exact (hS5 b hb a hab).trans (List.sublist_append_left _ _)
        · rw [List.mem_singleton] at hb
          subst hb
          have hasorted : a ∈ sorted := (hS3 b hvkey).mp (Or.inr hvq) a hab
          exact sublist_pair_append hasorted
      have hfuel' : g.keys.length - (sorted ++ [v]).length < fuel := by
        have hsub : sorted ++ [v] ⊆ g.keys := fun a hax => hsk' a hax
        have hle : (sorted ++ [v]).length ≤ g.keys.length :=
          (List.subperm_of_subset hsn' hsub).length_le
        rw [List.length_append, List.length_singleton] at hle ⊢
        omega
      rw [hstep]
      exact ih _ _ _ hsn' hqn' hdisj' hsk' hqk' hdeg' hS3' hS5' hfuel'

theorem traverse_spec {g : DAG} (hwf : WF g) (hm : Mutual g) (ha : Acyclic g) :
    List.Perm (traverse g) g.keys ∧
      ∀ a b, EdgeMem g a b → [a, b].Sublist (traverse g) := by
  have htr : traverse g = traverseLoop g (g.nodes.length + 1)
      (g.keys.filter (fun v => decide (((parentsOf g v).length : Int) = 0)))
      (fun v => ((parentsOf g v).length : Int)) [] := rfl
  have hqk : ∀ v ∈ g.keys.filter (fun v => decide (((parentsOf g v).length : Int) = 0)),
      v ∈ g.keys := by
    intro v hv
    exact (List.mem_filter.mp hv).1
  have hdeg : ∀ v ∈ g.keys, ((parentsOf g v).length : Int) =
      (((parentsOf g v).filter (fun p => decide (p ∉ ([] : List Val)))).length : Int) := by
    intro v _
    have hfe : (parentsOf g v).filter (fun p => decide (p ∉ ([] : List Val))) =
        parentsOf g v := by
      apply List.filter_eq_self.mpr
      intro a _
      simp
    rw [hfe]
  have hS3 : ∀ v ∈ g.keys,
      ((v ∈ ([] : List Val) ∨
        v ∈ g.keys.filter (fun v => decide (((parentsOf g v).length : Int) = 0))) ↔
      ∀ p ∈ parentsOf g v, p ∈ ([] : List Val)) := by
    intro v hv
    constructor
    · intro hc p hp
      rcases hc with hc | hc
      · cases hc
      · rw [List.mem_filter] at hc
        have : ((parentsOf g v).length : Int) = 0 := by
          have := hc.2
          simpa using this
        have hlen : (parentsOf g v).length = 0 := by omega
        rw [List.length_eq_zero] at hlen
        rw [hlen] at hp
        cases hp
    · intro hp
      right
      rw [List.mem_filter]
      refine ⟨hv, ?_⟩
      have hlen : parentsOf g v = [] := by
        cases hpe : parentsOf g v with
        | nil => rfl
        | cons a rest =>
          have := hp a (by rw [hpe]; exact List.mem_cons_self _ _)
          cases this
      simp [hlen]
  have hrun := traverseLoop_spec hwf hm ha (g.nodes.length + 1)
    (g.keys.filter (fun v => decide (((parentsOf g v).length : Int) = 0)))
    (fun v => ((parentsOf g v).length : Int)) []
    List.nodup_nil (hwf.1.filter _) (fun v _ => List.not_mem_nil v)
    (fun v hv => (List.not_mem_nil v hv).elim) hqk
    (fun v hv => hdeg v hv) hS3
    (fun b hb => (List.not_mem_nil b hb).elim)
    (by
      have : g.keys.length = g.nodes.length := List.length_map _ _
      simp
      omega)
  obtain ⟨hiff, hnodup, hS5⟩ := hrun
  rw [← htr] at hiff hnodup hS5
  constructor
  · apply perm_of_nodup_nodup_subset hnodup hwf.1
    · intro a hax
      by_contra hak
      have : a ∈ g.keys := by
        by_contra h2
        exact hak ((Iff.symm (hiff a)).mp hax |> fun x => absurd hax (by
          intro _
          exact h2 ((hiff a).mpr hax)))
      exact hak this
    · intro a hax
      exact (hiff a).mp hax
  · intro a b hab
    have hbk : b ∈ g.keys := hwf.childrenOf_subset hab
    have hapb : a ∈ parentsOf g b := (hm a b).mp hab
    exact hS5 b ((hiff b).mp hbk) a hapb

/-! ## Correctness of the `ShortestPath` breadth-first search -/

/-- `p` is a directed path from `f` to `t`: consecutive stored edges, starting
at `f` and ending at `t`. -/
def IsPath (g : DAG) (f t : Val) (p : List Val) : Prop :=
  p.Chain' (EdgeMem g) ∧ p.head? = some f ∧ p.getLast? = some t

theorem IsPath.ne_nil {g : DAG} {f t : Val} {p : List Val} (h : IsPath g f t p) : p ≠ [] := by
  intro h0
  rw [h0] at h
  cases h.2.1

theorem IsPath.length_pos {g : DAG} {f t : Val} {p : List Val} (h : IsPath g f t p) :
    1 ≤ p.length := by
  cases p with
  | nil => exact absurd rfl h.ne_nil
  | cons a rest => simp

theorem isPath_singleton {g : DAG} {f t a : Val} :
    IsPath g f t [a] ↔ a = f ∧ a = t := by
  constructor
  · rintro ⟨-, h1, h2⟩
    simp at h1 h2
    exact ⟨h1, h2⟩
  · rintro ⟨rfl, rfl⟩
    exact ⟨List.chain'_singleton a, rfl, rfl⟩

theorem isPath_self {g : DAG} {v : Val} : IsPath g v v [v] :=
  isPath_singleton.mpr ⟨rfl, rfl⟩

theorem isPath_of_length_one {g : DAG} {f t : Val} {p : List Val} (h : IsPath g f t p)
    (hl : p.length = 1) : t = f := by
  obtain ⟨a, rfl⟩ := List.length_eq_one.mp hl
  obtain ⟨h1, h2⟩ := isPath_singleton.mp h
  rw [← h1, ← h2]

theorem IsPath.snoc {g : DAG} {f v c : Val} {p : List Val} (h : IsPath g f v p)
    (he : EdgeMem g v c) : IsPath g f c (p ++ [c]) := by
  have hne := h.ne_nil
  obtain ⟨hc, hh, hl⟩ := h
  refine ⟨?_, ?_, ?_⟩
  · apply hc.append (List.chain'_singleton c)
    intro x hx y hy
    simp at hy
    rw [hl] at hx
    simp at hx
    subst hx
    subst hy
    exact he
  · rw [List.head?_append_of_ne_nil _ hne]
    exact hh
  · simp

theorem isPath_drop_last {g : DAG} {f w : Val} {q : List Val} (h : IsPath g f w q)
    (hlen : 2 ≤ q.length) :
    ∃ q1 u, q = q1 ++ [w] ∧ IsPath g f u q1 ∧ EdgeMem g u w ∧ q1.length + 1 = q.length := by
  obtain ⟨hc, hh, hl⟩ := h
  have hq : q.dropLast ++ [w] = q := List.dropLast_append_getLast? w hl
  have hq1len : q.dropLast.length + 1 = q.length := by
    conv_rhs => rw [← hq]
    simp
  have hq1ne : q.dropLast ≠ [] := by
    intro h0
    rw [h0] at hq1len
    simp at hq1len
    omega
  have hchain : q.dropLast.Chain' (EdgeMem g) ∧
      (∀ x ∈ q.dropLast.getLast?, ∀ y ∈ ([w] : List Val).head?, EdgeMem g x y) := by
    rw [← hq] at hc
    rw [List.chain'_append] at hc
    exact ⟨hc.1, hc.2.2⟩
  refine ⟨q.dropLast, q.dropLast.getLast hq1ne, hq.symm, ⟨hchain.1, ?_, ?_⟩, ?_, hq1len⟩
  · rw [← hq] at hh
    rw [List.head?_append_of_ne_nil _ hq1ne] at hh
    exact hh
  · exact List.getLast?_eq_getLast _ hq1ne
  · apply hchain.2
    · rw [List.getLast?_eq_getLast _ hq1ne]
      simp
    · simp

theorem path_last_mem_closed {g : DAG} {vis : List Val}
    (hclosed : ∀ w ∈ vis, ∀ c ∈ childrenOf g w, c ∈ vis) :
    ∀ (q : List Val) (s w : Val), s ∈ vis → IsPath g s w q → w ∈ vis := by
  intro q
  induction q with
  | nil =>
    intro s w _ h
    exact absurd rfl h.ne_nil
  | cons a rest ih =>
    intro s w hs h
    obtain ⟨hc, hh, hl⟩ := h
    have ha : a = s := by simpa using hh
    have has : a ∈ vis := by rw [ha]; exact hs
    cases rest with
    | nil =>
      have hwa : a = w := by simpa using hl
      rw [← hwa]
      exact has
    | cons b rest2 =>
      rw [List.chain'_cons] at hc
      have hb : b ∈ vis := hclosed a has b hc.1
      apply ih b w hb
      refine ⟨hc.2, rfl, ?_⟩
      simpa using hl

theorem bfsFold_spec : ∀ (cs p : List Val) (acc : List (Val × List Val)) (vis : List Val),
    cs.Nodup →
    cs.foldl (bfsStep p) (acc, vis) =
      (acc ++ (cs.filter (fun c => decide (c ∉ vis))).map (fun c => (c, p ++ [c])),
       ((cs.filter (fun c => decide (c ∉ vis))).reverse) ++ vis) := by
  intro cs
  induction cs with
  | nil =>
    intro p acc vis h
    simp
  | cons c cs ih =>
    intro p acc vis h
    rw [List.nodup_cons] at h
    rw [List.foldl_cons]
    by_cases hcv : c ∈ vis
    · have hstep : bfsStep p (acc, vis) c = (acc, vis) := by
        unfold bfsStep
        simp [hcv]
      rw [hstep, ih _ _ _ h.2, List.filter_cons]
      simp [hcv]
    · have hstep : bfsStep p (acc, vis) c = (acc ++ [(c, p ++ [c])], c :: vis) := by
        unfold bfsStep
        simp [hcv]
      rw [hstep, ih _ _ _ h.2, List.filter_cons]
      have hfil : cs.filter (fun x => decide (x ∉ c :: vis)) =
          cs.filter (fun x => decide (x ∉ vis)) := by
        apply List.filter_congr
        intro x hx
        have hxc : x ≠ c := fun he => h.1 (he ▸ hx)
        simp [hxc]
      rw [hfil]
      simp [hcv]

theorem shortestPathLoop_spec {g : DAG} (hwf : WF g) (f t : Val) :
    ∀ fuel (A B : List (Val × List Val)) (vis : List Val) (L : Nat),
      (∀ e ∈ A ++ B, IsPath g f e.1 e.2 ∧ e.1 ∈ vis) →
      (∀ e ∈ A, e.2.length = L) →
      (∀ e ∈ B, e.2.length = L + 1) →
      (∀ w q, IsPath g f w q → q.length ≤ L → w ∈ vis) →
      (∀ e ∈ A ++ B, ∀ q, IsPath g f e.1 q → e.2.length ≤ q.length) →
      (∀ w ∈ vis, (∃ p, (w, p) ∈ A ++ B) ∨ (∀ c ∈ childrenOf g w, c ∈ vis)) →
      (t ∈ vis → ∃ p, (t, p) ∈ A ++ B) →
      f ∈ vis →
      vis.Nodup → (∀ x ∈ vis, x ∈ g.keys) →
      ((A ++ B).map Prod.fst).Nodup →
      (A ++ B).length + (g.keys.length - vis.length) < fuel →
      (∀ p, shortestPathLoop g t fuel (A ++ B) vis = some p →
          IsPath g f t p ∧ ∀ q, IsPath g f t q → p.length ≤ q.length) ∧
      (shortestPathLoop g t fuel (A ++ B) vis = none → ¬ ∃ q, IsPath g f t q) := by
  intro fuel
  induction fuel with
  | zero =>
    intro A B vis L _ _ _ _ _ _ _ _ _ _ _ hfuel
    omega
  | succ fuel ih =>
    intro A B vis L hQ1 hA hB hD hM hE hEt hf hvisnd hviskeys hqnd hfuel
    -- the dequeue case, assuming the front block is nonempty
    have hcase : ∀ (v : Val) (p : List Val) (A2 B2 : List (Val × List Val))
        (vis : List Val) (L : Nat),
        (∀ e ∈ (v, p) :: (A2 ++ B2), IsPath g f e.1 e.2 ∧ e.1 ∈ vis) →
        (∀ e ∈ (v, p) :: A2, e.2.length = L) →
        (∀ e ∈ B2, e.2.length = L + 1) →
        (∀ w q, IsPath g f w q → q.length ≤ L → w ∈ vis) →
        (∀ e ∈ (v, p) :: (A2 ++ B2), ∀ q, IsPath g f e.1 q → e.2.length ≤ q.length) →
        (∀ w ∈ vis, (∃ pp, (w, pp) ∈ (v, p) :: (A2 ++ B2)) ∨
          (∀ c ∈ childrenOf g w, c ∈ vis)) →
        (t ∈ vis → ∃ pp, (t, pp) ∈ (v, p) :: (A2 ++ B2)) →
        f ∈ vis →
        vis.Nodup → (∀ x ∈ vis, x ∈ g.keys) →
        (((v, p) :: (A2 ++ B2)).map Prod.fst).Nodup →
        ((v, p) :: (A2 ++ B2)).length + (g.keys.length - vis.length) < fuel + 1 →
        (∀ p2, shortestPathLoop g t (fuel + 1) ((v, p) :: (A2 ++ B2)) vis = some p2 →
            IsPath g f t p2 ∧ ∀ q, IsPath g f t q → p2.length ≤ q.length) ∧
        (shortestPathLoop g t (fuel + 1) ((v, p) :: (A2 ++ B2)) vis = none →
          ¬ ∃ q, IsPath g f t q) := by
      intro v p A2 B2 vis L hQ1 hA hB hD hM hE hEt hf hvisnd hviskeys hqnd hfuel
      have hhead : (v, p) ∈ (v, p) :: (A2 ++ B2) := List.mem_cons_self _ _
      have hvp : IsPath g f v p := (hQ1 _ hhead).1
      have hplen : p.length = L := hA _ (List.mem_cons_self _ _)
      by_cases hvt : v = t
      · subst hvt
        constructor
        · intro p2 hp2
          rw [shortestPathLoop, if_pos rfl] at hp2
          cases hp2
          exact ⟨hvp, fun q hq => hM _ hhead q hq⟩
        · intro hnone
          rw [shortestPathLoop, if_pos rfl] at hnone
          cases hnone
      · have hChildNodup : (Children g v).Nodup := sortByRepr_nodup (hwf.childrenOf_nodup v)
        have hfold := bfsFold_spec (Children g v) p [] vis hChildNodup
        have hloopeq : shortestPathLoop g t (fuel + 1) ((v, p) :: (A2 ++ B2)) vis =
            shortestPathLoop g t fuel
              ((A2 ++ B2) ++
                ((Children g v).filter (fun c => decide (c ∉ vis))).map
                  (fun c => (c, p ++ [c])))
              (((Children g v).filter (fun c => decide (c ∉ vis))).reverse ++ vis) := by
          rw [shortestPathLoop, if_neg hvt, hfold]
          rfl
        have hNmem : ∀ c, c ∈ (Children g v).filter (fun c => decide (c ∉ vis)) ↔
            (c ∈ childrenOf g v ∧ c ∉ vis) := by
          intro c
          rw [List.mem_filter, mem_Children]
          simp
        have hNnodup : ((Children g v).filter (fun c => decide (c ∉ vis))).Nodup :=
          hChildNodup.filter _
        have hvis'mem : ∀ x,
            x ∈ ((Children g v).filter (fun c => decide (c ∉ vis))).reverse ++ vis ↔
            (x ∈ (Children g v).filter (fun c => decide (c ∉ vis)) ∨ x ∈ vis) := by
          intro x
          rw [List.mem_append, List.mem_reverse]
        have hsubvis : ∀ x ∈ vis,
            x ∈ ((Children g v).filter (fun c => decide (c ∉ vis))).reverse ++ vis := by
          intro x hx
          exact (hvis'mem x).mpr (Or.inr hx)
        have hNQmem : ∀ e, e ∈ ((Children g v).filter (fun c => decide (c ∉ vis))).map
            (fun c => (c, p ++ [c])) ↔
            ∃ c ∈ (Children g v).filter (fun c => decide (c ∉ vis)), e = (c, p ++ [c]) := by
          intro e
          rw [List.mem_map]
          constructor
          · rintro ⟨c, hc, rfl⟩
            exact ⟨c, hc, rfl⟩
          · rintro ⟨c, hc, rfl⟩
            exact ⟨c, hc, rfl⟩
        -- invariant for the recursive call
        have hQ1' : ∀ e ∈ A2 ++ (B2 ++ ((Children g v).filter (fun c => decide (c ∉ vis))).map
            (fun c => (c, p ++ [c]))),
            IsPath g f e.1 e.2 ∧
              e.1 ∈ ((Children g v).filter (fun c => decide (c ∉ vis))).reverse ++ vis := by
          intro e he
          rw [← List.append_assoc, List.mem_append] at he
          rcases he with he | he
          · have h0 := hQ1 e (List.mem_cons_of_mem _ he)
            exact ⟨h0.1, hsubvis _ h0.2⟩
          · obtain ⟨c, hc, rfl⟩ := (hNQmem e).mp he
            refine ⟨hvp.snoc ((hNmem c).mp hc).1, ?_⟩
            exact (hvis'mem c).mpr (Or.inl hc)
        have hA' : ∀ e ∈ A2, e.2.length = L := fun e he => hA e (List.mem_cons_of_mem _ he)
        have hB' : ∀ e ∈ B2 ++ ((Children g v).filter (fun c => decide (c ∉ vis))).map
            (fun c => (c, p ++ [c])), e.2.length = L + 1 := by
          intro e he
          rcases List.mem_append.mp he with he | he
          · exact hB e he
          · obtain ⟨c, hc, rfl⟩ := (hNQmem e).mp he
            simp [hplen]
        have hD' : ∀ w q, IsPath g f w q → q.length ≤ L →
            w ∈ ((Children g v).filter (fun c => decide (c ∉ vis))).reverse ++ vis :=
          fun w q hq hlen => hsubvis _ (hD w q hq hlen)
        have hM' : ∀ e ∈ A2 ++ (B2 ++ ((Children g v).filter (fun c => decide (c ∉ vis))).map
            (fun c => (c, p ++ [c]))), ∀ q, IsPath g f e.1 q → e.2.length ≤ q.length := by
          intro e he q hq
          rw [← List.append_assoc, List.mem_append] at he
          rcases he with he | he
          · exact hM e (List.mem_cons_of_mem _ he) q hq
          · obtain ⟨c, hc, rfl⟩ := (hNQmem e).mp he
            have hcnot : c ∉ vis := ((hNmem c).mp hc).2
            by_cases hql : q.length ≤ L
            · exact absurd (hD c q hq hql) hcnot
            · simp only [List.length_append, List.length_singleton, hplen]
              omega
        have hE' : ∀ w ∈ ((Children g v).filter (fun c => decide (c ∉ vis))).reverse ++ vis,
            (∃ pp, (w, pp) ∈ A2 ++ (B2 ++
              ((Children g v).filter (fun c => decide (c ∉ vis))).map
                (fun c => (c, p ++ [c])))) ∨
            (∀ c ∈ childrenOf g w,
              c ∈ ((Children g v).filter (fun c => decide (c ∉ vis))).reverse ++ vis) := by
          intro w hw
          rcases (hvis'mem w).mp hw with hw | hw
          · left
            refine ⟨p ++ [w], ?_⟩
            rw [← List.append_assoc, List.mem_append]
            right
            exact (hNQmem _).mpr ⟨w, hw, rfl⟩
          · rcases hE w hw with ⟨pw, hpw⟩ | hclosed
            · rcases List.mem_cons.mp hpw with heq | hpw
              · -- w = v: now fully expanded
                right
                intro c hc
                have hcc : c ∈ Children g v := by
                  rw [mem_Children]
                  have hwv : w = v := congrArg Prod.fst heq
                  rw [← hwv]
                  exact hc
                by_cases hcv : c ∈ vis
                · exact hsubvis _ hcv
                · refine (hvis'mem c).mpr (Or.inl ?_)
                  rw [List.mem_filter]
                  refine ⟨hcc, by simpa using hcv⟩
              · left
                refine ⟨pw, ?_⟩
                rw [← List.append_assoc, List.mem_append]
                left
                exact hpw
            · right
              intro c hc
              exact hsubvis _ (hclosed c hc)
        have hEt' : t ∈ ((Children g v).filter (fun c => decide (c ∉ vis))).reverse ++ vis →
            ∃ pp, (t, pp) ∈ A2 ++ (B2 ++
              ((Children g v).filter (fun c => decide (c ∉ vis))).map
                (fun c => (c, p ++ [c]))) := by
          intro ht
          rcases (hvis'mem t).mp ht with ht | ht
          · refine ⟨p ++ [t], ?_⟩
            rw [← List.append_assoc, List.mem_append]
            right
            exact (hNQmem _).mpr ⟨t, ht, rfl⟩
          · obtain ⟨pt, hpt⟩ := hEt ht
            rcases List.mem_cons.mp hpt with heq | hpt
            · exact absurd (congrArg Prod.fst heq).symm hvt
            · refine ⟨pt, ?_⟩
              rw [← List.append_assoc, List.mem_append]
              left
              exact hpt
        have hf' : f ∈ ((Children g v).filter (fun c => decide (c ∉ vis))).reverse ++ vis :=
          hsubvis _ hf
        have hNdisj : ∀ c ∈ (Children g v).filter (fun c => decide (c ∉ vis)), c ∉ vis :=
          fun c hc => ((hNmem c).mp hc).2
        have hvis'nd : (((Children g v).filter (fun c => decide (c ∉ vis))).reverse ++
            vis).Nodup := by
          apply List.Nodup.append (List.nodup_reverse.mpr hNnodup) hvisnd
          intro a ha hav
          exact hNdisj a (List.mem_reverse.mp ha) hav
        have hvis'keys : ∀ x ∈ ((Children g v).filter (fun c => decide (c ∉ vis))).reverse ++
            vis, x ∈ g.keys := by
          intro x hx
          rcases (hvis'mem x).mp hx with hx | hx
          · exact hwf.childrenOf_subset (((hNmem x).mp hx).1)
          · exact hviskeys x hx
        have hqnd' : ((A2 ++ (B2 ++ ((Children g v).filter (fun c => decide (c ∉ vis))).map
            (fun c => (c, p ++ [c])))).map Prod.fst).Nodup := by
          rw [← List.append_assoc, List.map_append]
          have hmapN : (((Children g v).filter (fun c => decide (c ∉ vis))).map
              (fun c => (c, p ++ [c]))).map Prod.fst =
              (Children g v).filter (fun c => decide (c ∉ vis)) := by
            rw [List.map_map]
            exact List.map_id _
          rw [hmapN]
          apply List.Nodup.append
          · have := hqnd
            rw [List.map_cons, List.nodup_cons] at this
            exact this.2
          · exact hNnodup
          · intro a ha han
            have hav : a ∈ vis := by
              rw [List.mem_map] at ha
              obtain ⟨e, he, rfl⟩ := ha
              exact (hQ1 e (List.mem_cons_of_mem _ he)).2
            exact hNdisj a han hav
        have hvis'len : (((Children g v).filter (fun c => decide (c ∉ vis))).reverse ++
            vis).length ≤ g.keys.length :=
          (List.subperm_of_subset hvis'nd (fun x hx => hvis'keys x hx)).length_le
        have hfuel' : (A2 ++ (B2 ++ ((Children g v).filter (fun c => decide (c ∉ vis))).map
            (fun c => (c, p ++ [c])))).length +
            (g.keys.length -
              (((Children g v).filter (fun c => decide (c ∉ vis))).reverse ++ vis).length) <
            fuel := by
          rw [← List.append_assoc]
          simp only [List.length_append, List.length_cons, List.length_map,
            List.length_reverse] at hfuel hvis'len ⊢
          omega
        have hrec := ih A2 (B2 ++ ((Children g v).filter (fun c => decide (c ∉ vis))).map
            (fun c => (c, p ++ [c])))
          (((Children g v).filter (fun c => decide (c ∉ vis))).reverse ++ vis) L
          hQ1' hA' hB' hD' hM' hE' hEt' hf' hvis'nd hvis'keys hqnd' hfuel'
        rw [hloopeq, List.append_assoc]
        exact hrec
    -- dispatch on the block structure
    cases hA0 : A with
    | cons e A2 =>
      obtain ⟨v, p⟩ := e
      subst hA0
      exact hcase v p A2 B vis L hQ1 (fun e he => hA e he) hB hD hM hE hEt hf hvisnd
        hviskeys hqnd hfuel
    | nil =>
      subst hA0
      cases hB0 : B with
      | nil =>
        subst hB0
        constructor
        · intro p2 hp2
          rw [List.nil_append, shortestPathLoop] at hp2
          cases hp2
        · rw [List.nil_append]
          intro _ ⟨q, hq⟩
          have hclosed : ∀ w ∈ vis, ∀ c ∈ childrenOf g w, c ∈ vis := by
            intro w hw
            rcases hE w hw with ⟨pp, hpp⟩ | h2
            · cases hpp
            · exact h2
          have ht : t ∈ vis := path_last_mem_closed hclosed q f t hf hq
          obtain ⟨pp, hpp⟩ := hEt ht
          cases hpp
      | cons e B2 =>
        obtain ⟨v, p⟩ := e
        subst hB0
        -- upgrade the level from L to L + 1 and re-dispatch
        have hD2 : ∀ w q, IsPath g f w q → q.length ≤ L + 1 → w ∈ vis := by
          intro w q hq hqlen
          by_cases hle : q.length ≤ L
          · exact hD w q hq hle
          · by_cases hone : q.length = 1
            · have hwff : w = f := isPath_of_length_one hq hone
              rw [hwff]
              exact hf
            have h2 : 2 ≤ q.length := by
              have := hq.length_pos
              omega
            obtain ⟨q1, u, hqe, hq1, hedge, hq1len⟩ := isPath_drop_last hq h2
            have hu : u ∈ vis := hD u q1 hq1 (by omega)
            rcases hE u hu with ⟨pu, hpu⟩ | hclosed
            · have hlen1 : pu.length = L + 1 := hB _ hpu
              have hlen2 : pu.length ≤ q1.length := hM (u, pu) hpu q1 hq1
              omega
            · exact hclosed w hedge
        have hres := hcase v p B2 [] vis (L + 1)
          (by
            intro e he
            rw [List.append_nil] at he
            exact hQ1 e he)
          (fun e he => hB e he)
          (fun e he => absurd he (List.not_mem_nil e))
          hD2
          (by
            intro e he
            rw [List.append_nil] at he
            exact hM e he)
          (by
            intro w hw
            rcases hE w hw with ⟨pp, hpp⟩ | h2
            · left
              exact ⟨pp, by rw [List.append_nil]; exact hpp⟩
            · right
              exact h2)
          (by
            intro ht
            obtain ⟨pp, hpp⟩ := hEt ht
            exact ⟨pp, by rw [List.append_nil]; exact hpp⟩)
          hf hvisnd hviskeys
          (by rw [List.append_nil]; exact hqnd)
          (by rw [List.append_nil]; exact hfuel)
        rw [List.append_nil] at hres
        exact hres

theorem shortestPath_spec {g : DAG} (hwf : WF g) (f t : Val) :
    (shortestPath g f t = none ↔ (f ∉ g.keys ∨ t ∉ g.keys ∨ ¬ ∃ q, IsPath g f t q)) ∧
    (∀ p, shortestPath g f t = some p →
        IsPath g f t p ∧ ∀ q, IsPath g f t q → p.length ≤ q.length) := by
  cases hlf : lookupNode g.nodes f with
  | none =>
    have hfk : f ∉ g.keys := by
      rw [mem_keys, hlf]
      simp
    have heq : shortestPath g f t = none := by
      unfold shortestPath
      cases hlt : lookupNode g.nodes t <;> rw [hlf]
    refine ⟨by simp [heq, hfk], ?_⟩
    intro p hp
    rw [heq] at hp
    cases hp
  | some nf =>
    cases hlt : lookupNode g.nodes t with
    | none =>
      have htk : t ∉ g.keys := by
        rw [mem_keys, hlt]
        simp
      have heq : shortestPath g f t = none := by
        unfold shortestPath
        rw [hlf, hlt]
      refine ⟨by simp [heq, htk], ?_⟩
      intro p hp
      rw [heq] at hp
      cases hp
    | some nt =>
      have hfk : f ∈ g.keys := mem_keys_of_lookup hlf
      have htk : t ∈ g.keys := mem_keys_of_lookup hlt
      have heq : shortestPath g f t =
          shortestPathLoop g t (g.nodes.length + 1) [(f, [f])] [f] := by
        unfold shortestPath
        rw [hlf, hlt]
      have hkpos : 0 < g.keys.length := List.length_pos.mpr (List.ne_nil_of_mem hfk)
      have hrun := shortestPathLoop_spec hwf f t (g.nodes.length + 1) [(f, [f])] [] [f] 1
        (by
          intro e he
          rw [List.append_nil] at he
          rw [List.mem_singleton] at he
          subst he
          exact ⟨isPath_self, by simp⟩)
        (by
          intro e he
          rw [List.mem_singleton] at he
          subst he
          rfl)
        (fun e he => absurd he (List.not_mem_nil e))
        (by
          intro w q hq hl
          have h1 : q.length = 1 := by
            have := hq.length_pos
            omega
          have h2 := isPath_of_length_one hq h1
          simp [h2])
        (by
          intro e he q hq
          rw [List.append_nil, List.mem_singleton] at he
          subst he
          exact hq.length_pos)
        (by
          intro w hw
          rw [List.mem_singleton] at hw
          subst hw
          left
          exact ⟨[w], by simp⟩)
        (by
          intro ht
          rw [List.mem_singleton] at ht
          subst ht
          exact ⟨[t], by simp⟩)
        (List.mem_singleton_self f)
        (List.nodup_singleton f)
        (by
          intro x hx
          rw [List.mem_singleton] at hx
          subst hx
          exact hfk)
        (by simp)
        (by
          have hkn : g.keys.length = g.nodes.length := List.length_map _ _
          simp
          omega)
      rw [List.append_nil] at hrun
      obtain ⟨hsome, hnone⟩ := hrun
      constructor
      · rw [heq]
        constructor
        · intro h0
          exact Or.inr (Or.inr (hnone h0))
        · intro h0
          rcases h0 with h0 | h0 | h0
          · exact absurd hfk h0
          · exact absurd htk h0
          · cases hres : shortestPathLoop g t (g.nodes.length + 1) [(f, [f])] [f] with
            | none => rfl
            | some p => exact absurd ⟨p, (hsome p hres).1⟩ h0
      · intro p hp
        exact hsome p (heq ▸ hp)

/-! ## `ShortestPath` and `HasPath` on a present node itself -/

theorem shortestPath_self {g : DAG} {v : Val} (hv : v ∈ g.keys) :
    shortestPath g v v = some [v] := by
  obtain ⟨n, hn⟩ := exists_lookup_of_mem_keys hv
  unfold shortestPath
  rw [hn, shortestPathLoop, if_pos rfl]

/-! ## `Ancestors`/`Descendants`: the nil-slice accumulator never turns back
into nil once something is appended -/

theorem goAppend_isSome {acc : Option (List Val)} {v : Val} :
    ((goAppend acc v).isSome) = true := rfl

theorem collectFold_isSome_of {adj : Val → List Val} {fuel : Nat}
    (hvisit : ∀ nd acc vis, acc.isSome = true →
      ((collectVisit adj fuel nd acc vis).1).isSome = true) :
    ∀ ps acc vis, acc.isSome = true →
      ((collectFold adj fuel ps acc vis).1).isSome = true := by
  intro ps
  induction ps with
  | nil =>
    intro acc vis h
    rw [collectFold, collectFoldF]
    exact h
  | cons p ps ihp =>
    intro acc vis h
    rw [collectFold, collectFoldF]
    by_cases hp : p ∈ vis
    · rw [if_pos hp]
      exact ihp _ _ h
    · rw [if_neg hp]
      cases hv : collectVisit adj fuel p (goAppend acc p) (p :: vis) with
      | mk acc1 vis1 =>
        have hs : acc1.isSome = true := by
          have := hvisit p (goAppend acc p) (p :: vis) goAppend_isSome
          rw [hv] at this
          exact this
        exact ihp _ _ hs

theorem collectVisit_isSome {adj : Val → List Val} :
    ∀ fuel nd acc vis, acc.isSome = true →
      ((collectVisit adj fuel nd acc vis).1).isSome = true := by
  intro fuel
  induction fuel with
  | zero =>
    intro nd acc vis h
    rw [collectVisit]
    exact h
  | succ fuel ih =>
    intro nd acc vis h
    rw [collectVisit]
    exact collectFold_isSome_of (fun nd acc vis h => ih nd acc vis h) _ _ _ h

theorem ancestors_of_absent {g : DAG} {v : Val} (h : lookupNode g.nodes v = none) :
    ancestors g v = none := by
  unfold ancestors
  rw [h]

theorem descendants_of_absent {g : DAG} {v : Val} (h : lookupNode g.nodes v = none) :
    descendants g v = none := by
  unfold descendants
  rw [h]

theorem ancestors_of_no_parents {g : DAG} {v : Val} {n : Node}
    (hn : lookupNode g.nodes v = some n) (hp : parentsOf g v = []) :
    ancestors g v = none := by
  unfold ancestors
  rw [hn]
  have hP : Parents g v = [] := by
    unfold Parents
    rw [hp]
    rfl
  rw [collectVisit, hP, collectFoldF]

theorem descendants_of_no_children {g : DAG} {v : Val} {n : Node}
    (hn : lookupNode g.nodes v = some n) (hp : childrenOf g v = []) :
    descendants g v = none := by
  unfold descendants
  rw [hn]
  have hP : Children g v = [] := by
    unfold Children
    rw [hp]
    rfl
  rw [collectVisit, hP, collectFoldF]

theorem ancestors_isSome_of_parent {g : DAG} {v : Val} {n : Node}
    (hn : lookupNode g.nodes v = some n) (hp : parentsOf g v ≠ []) :
    (ancestors g v).isSome = true := by
  unfold ancestors
  rw [hn]
  cases hP : Parents g v with
  | nil =>
    exfalso
    apply hp
    have := sortByRepr_perm (parentsOf g v)
    rw [show sortByRepr (parentsOf g v) = Parents g v from rfl, hP] at this
    exact (List.Perm.nil_eq this).symm
  | cons p ps =>
    rw [collectVisit, hP, collectFoldF, if_neg (List.not_mem_nil p)]
    cases hv : collectVisit (Parents g) (g.nodes.length) p (goAppend none p) [p] with
    | mk acc1 vis1 =>
      have hs : acc1.isSome = true := by
        have := @collectVisit_isSome (Parents g) g.nodes.length p (goAppend none p) [p]
          goAppend_isSome
        rw [hv] at this
        exact this
      exact collectFold_isSome_of
        (fun nd acc vis h => @collectVisit_isSome (Parents g) g.nodes.length nd acc vis h)
        _ _ _ hs

/-! ## Analysis of a failing `AddEdge` -/

theorem parentsOf_addNode2 {g : DAG} {f t w : Val} :
    parentsOf (addNode (addNode g f).2 t).2 w = parentsOf g w := by
  rw [parentsOf_addNode, parentsOf_addNode]

theorem childrenOf_addNode2 {g : DAG} {f t w : Val} :
    childrenOf (addNode (addNode g f).2 t).2 w = childrenOf g w := by
  rw [childrenOf_addNode, childrenOf_addNode]

theorem ancestor_addNode2_iff {g : DAG} {f t a x : Val} :
    Ancestor (addNode (addNode g f).2 t).2 a x ↔ Ancestor g a x := by
  apply transGen_congr
  intro a b
  rw [ParentOf, ParentOf, parentsOf_addNode2]

/-- A failing `AddEdge` call is exactly one where `from` already has `to` as
an ancestor, or `from = to`. -/
theorem addEdge_error_characterization {g : DAG} (hwf : WF g) (f t : Val) :
    (addEdge g f t).1 = .cycleDetected ↔ (f = t ∨ Ancestor g t f) := by
  rw [addEdge_error_iff]
  have hwf2 : WF (addNode (addNode g f).2 t).2 := wf_addNode (wf_addNode hwf)
  have hf2 : f ∈ (addNode (addNode g f).2 t).2.keys := mem_keys_addEdge_base_left g f t
  rw [hasAncestor_iff_ancestor hwf2 hf2]
  rw [ancestor_addNode2_iff]
  constructor
  · rintro (rfl | h)
    · exact Or.inl rfl
    · exact Or.inr h
  · rintro (rfl | h)
    · exact Or.inl rfl
    · exact Or.inr h

/-- The source of an ancestor chain is stored in some parents set, and the
chain ends through a nonempty parents set. -/
theorem ancestor_mem_keys {g : DAG} (hwf : WF g) {a x : Val} (h : Ancestor g a x) :
    a ∈ g.keys ∧ parentsOf g x ≠ [] := by
  induction h with
  | single hc =>
    have hc2 : _ ∈ parentsOf g _ := hc
    refine ⟨hwf.parentsOf_subset hc2, ?_⟩
    intro h0
    rw [h0] at hc2
    cases hc2
  | tail hab hbc ih =>
    have hc2 : _ ∈ parentsOf g _ := hbc
    refine ⟨ih.1, ?_⟩
    intro h0
    rw [h0] at hc2
    cases hc2

/-- A failing `AddEdge` whose endpoints are not both present can only be the
self-loop case `f = t` on an absent value. -/
theorem addEdge_error_absent {g : DAG} (hwf : WF g) {f t : Val}
    (herr : (addEdge g f t).1 = .cycleDetected) (hnk : ¬ (f ∈ g.keys ∧ t ∈ g.keys)) :
    f = t ∧ f ∉ g.keys := by
  have hchar := (addEdge_error_characterization hwf f t).mp herr
  rcases hchar with rfl | h
  · refine ⟨rfl, ?_⟩
    intro hfk
    exact hnk ⟨hfk, hfk⟩
  · exfalso
    -- a genuine ancestor chain forces both endpoints to be present
    have htk : t ∈ g.keys := (ancestor_mem_keys hwf h).1
    have hpf : parentsOf g f ≠ [] := (ancestor_mem_keys hwf h).2
    have hfk : f ∈ g.keys := by
      cases hlf : lookupNode g.nodes f with
      | some n => exact mem_keys_of_lookup hlf
      | none => exact absurd (parentsOf_eq_none hlf) hpf
    exact hnk ⟨hfk, htk⟩

theorem descendants_isSome_of_child {g : DAG} {v : Val} {n : Node}
    (hn : lookupNode g.nodes v = some n) (hp : childrenOf g v ≠ []) :
    (descendants g v).isSome = true := by
  unfold descendants
  rw [hn]
  cases hP : Children g v with
  | nil =>
    exfalso
    apply hp
    have := sortByRepr_perm (childrenOf g v)
    rw [show sortByRepr (childrenOf g v) = Children g v from rfl, hP] at this
    exact (List.Perm.nil_eq this).symm
  | cons p ps =>
    rw [collectVisit, hP, collectFoldF, if_neg (List.not_mem_nil p)]
    cases hv : collectVisit (Children g) (g.nodes.length) p (goAppend none p) [p] with
    | mk acc1 vis1 =>
      have hs : acc1.isSome = true := by
        have := @collectVisit_isSome (Children g) g.nodes.length p (goAppend none p) [p]
          goAppend_isSome
        rw [hv] at this
        exact this
      exact collectFold_isSome_of
        (fun nd acc vis h => @collectVisit_isSome (Children g) g.nodes.length nd acc vis h)
        _ _ _ hs

/-! ## Concrete example graphs, built through the public operations -/

/-- The chain 1 → 2 → 3. -/
def gChain : DAG := (addEdge (addEdge NewDAG 1 2).2 2 3).2

/-- A single isolated node 1 with no incident edges. -/
def gSingle : DAG := (addNode NewDAG 1).2

/-- The spec's shortest-path example: edges 1→2, 2→3, 1→4, 4→3, 2→5 plus the
disconnected component 6→7. -/
def gEx : DAG :=
  (addEdge (addEdge (addEdge (addEdge (addEdge
    (addEdge NewDAG 1 2).2 2 3).2 1 4).2 4 3).2 2 5).2 6 7).2

theorem reachable_gChain : Reachable gChain :=
  Reachable.addEdge 2 3 (Reachable.addEdge 1 2 Reachable.empty)

theorem reachable_gSingle : Reachable gSingle :=
  Reachable.addNode 1 Reachable.empty

theorem reachable_gEx : Reachable gEx :=
  Reachable.addEdge 6 7 (Reachable.addEdge 2 5 (Reachable.addEdge 4 3
    (Reachable.addEdge 1 4 (Reachable.addEdge 2 3
      (Reachable.addEdge 1 2 Reachable.empty)))))

/-! ## The specification claims -/

/-- C1 counterexample: in the chain 1 → 2 → 3 the prospective child 3 already
has 1 as an ancestor, yet `AddEdge(1, 3)` returns success instead of failing
with CycleDetected — the cycle check vetoes in the opposite direction to the
claimed one (it fails when the prospective *parent* has the child as an
ancestor). -/
theorem c1_counterexample :
    Ancestor gChain 1 3 ∧ (addEdge gChain 1 3).1 = AddEdgeResult.ok := by
  constructor
  · have h12 : ParentOf gChain 1 2 := by decide
    have h23 : ParentOf gChain 2 3 := by decide
    exact Relation.TransGen.head h12 (Relation.TransGen.single h23)
  · decide

/-- C1 (amended): `AddEdge(from, to)` fails with CycleDetected precisely when
from = to or **from** already has **to** as an ancestor at the moment of the
call (equivalently, a directed path to ⇝ from exists); in every other case it
links from to to — to joins from's children and from joins to's parents — and
returns success. -/
theorem c1_addEdge_characterization {g : DAG} (hwf : WF g) (f t : Val) :
    ((addEdge g f t).1 = AddEdgeResult.cycleDetected ↔ (f = t ∨ Ancestor g t f)) ∧
    ((addEdge g f t).1 = AddEdgeResult.ok →
      t ∈ childrenOf (addEdge g f t).2 f ∧ f ∈ parentsOf (addEdge g f t).2 t) := by
  refine ⟨addEdge_error_characterization hwf f t, ?_⟩
  intro hok
  cases hha : hasAncestor (addNode (addNode g f).2 t).2 f t with
  | true =>
    rw [addEdge_error_iff.mpr hha] at hok
    cases hok
  | false =>
    rw [childrenOf_addEdge_ok hha f, parentsOf_addEdge_ok hha t, if_pos rfl, if_pos rfl]
    exact ⟨List.mem_insert_self t _, List.mem_insert_self f _⟩

/-- C1 witness: the amended characterisation instantiated on the chain
1 → 2 → 3 at the edge request 3 → 1, which closes a cycle. -/
theorem c1_witness :
    WF gChain ∧
    (((addEdge gChain 3 1).1 = AddEdgeResult.cycleDetected ↔
        ((3 : Val) = 1 ∨ Ancestor gChain 1 3)) ∧
      ((addEdge gChain 3 1).1 = AddEdgeResult.ok →
        (1 : Val) ∈ childrenOf (addEdge gChain 3 1).2 3 ∧
        (3 : Val) ∈ parentsOf (addEdge gChain 3 1).2 1)) :=
  ⟨by decide, c1_addEdge_characterization (by decide) 3 1⟩

/-- C2 counterexample: on the empty graph `AddEdge(1, 1)` fails with
CycleDetected, yet the graph does not stay unmodified: the node 1
auto-vivified before the cycle check remains in the index. -/
theorem c2_counterexample :
    (addEdge NewDAG 1 1).1 = AddEdgeResult.cycleDetected ∧
      (addEdge NewDAG 1 1).2 ≠ NewDAG := by
  decide

/-- C2 (amended): a failing `AddEdge(from, to)` changes no node's parent or
child sets, and leaves the node index unchanged as well — except when
from = to for a value absent from the graph, in which case the node
auto-vivified by the `AddNode` calls preceding the cycle check remains as an
isolated node. -/
theorem c2_addEdge_error_mutation {g : DAG} (hwf : WF g) (f t : Val)
    (herr : (addEdge g f t).1 = AddEdgeResult.cycleDetected) :
    (∀ v, parentsOf (addEdge g f t).2 v = parentsOf g v ∧
          childrenOf (addEdge g f t).2 v = childrenOf g v) ∧
    ((addEdge g f t).2 = g ∨
      (f = t ∧ f ∉ g.keys ∧ (addEdge g f t).2.keys = f :: g.keys)) := by
  have hha : hasAncestor (addNode (addNode g f).2 t).2 f t = true :=
    addEdge_error_iff.mp herr
  have hg2 : (addEdge g f t).2 = (addNode (addNode g f).2 t).2 := by
    rw [addEdge_eq_error hha]
  constructor
  · intro v
    rw [hg2]
    exact ⟨parentsOf_addNode2, childrenOf_addNode2⟩
  · by_cases hk : f ∈ g.keys ∧ t ∈ g.keys
    · left
      obtain ⟨nf, hnf⟩ := exists_lookup_of_mem_keys hk.1
      obtain ⟨nt, hnt⟩ := exists_lookup_of_mem_keys hk.2
      rw [hg2, addNode_of_present hnf]
      show (addNode g t).2 = g
      rw [addNode_of_present hnt]
    · right
      obtain ⟨hft, hfk⟩ := addEdge_error_absent hwf herr hk
      subst hft
      have h1 : (addNode g f).2.keys = f :: g.keys := by
        rw [keys_addNode, if_neg hfk]
      refine ⟨rfl, hfk, ?_⟩
      rw [hg2, keys_addNode, if_pos mem_keys_addNode_self, h1]

/-- C2 witness: the amended statement instantiated at the failing self-loop
`AddEdge(1, 1)` on the empty graph. -/
theorem c2_witness :
    WF NewDAG ∧ (addEdge NewDAG 1 1).1 = AddEdgeResult.cycleDetected ∧
    ((∀ v, parentsOf (addEdge NewDAG 1 1).2 v = parentsOf NewDAG v ∧
           childrenOf (addEdge NewDAG 1 1).2 v = childrenOf NewDAG v) ∧
     ((addEdge NewDAG 1 1).2 = NewDAG ∨
       ((1 : Val) = 1 ∧ (1 : Val) ∉ NewDAG.keys ∧
         (addEdge NewDAG 1 1).2.keys = 1 :: NewDAG.keys))) :=
  ⟨by decide, by decide, c2_addEdge_error_mutation (by decide) 1 1 (by decide)⟩

/-- C3: in every graph state reachable through the public operations,
mutuality holds: for nodes x and y owned by the graph, y lies in x's children
set exactly when x lies in y's parents set (preservation by AddNode, AddEdge,
RemoveNode, RemoveEdge and Clear is the content of `reachable_graphInv`). -/
theorem c3_mutuality {g : DAG} (h : Reachable g) (x y : Val)
    (_hx : x ∈ g.keys) (_hy : y ∈ g.keys) :
    y ∈ childrenOf g x ↔ x ∈ parentsOf g y :=
  (reachable_graphInv h).2.1 x y

/-- C3 witness: mutuality of the stored edge 1 → 2 of the chain 1 → 2 → 3. -/
theorem c3_witness :
    Reachable gChain ∧ (1 : Val) ∈ gChain.keys ∧ (2 : Val) ∈ gChain.keys ∧
      ((2 : Val) ∈ childrenOf gChain 1 ↔ (1 : Val) ∈ parentsOf gChain 2) :=
  ⟨reachable_gChain, by decide, by decide,
    c3_mutuality reachable_gChain 1 2 (by decide) (by decide)⟩

/-- C4: for every reachable graph, `Traverse()` outputs every node exactly
once — its output is a permutation of the node set — and for every stored
edge a → b it places a strictly before b. -/
theorem c4_traverse_topological {g : DAG} (h : Reachable g) :
    List.Perm (traverse g) g.keys ∧
      ∀ a b, EdgeMem g a b → [a, b].Sublist (traverse g) := by
  obtain ⟨hwf, hm, ha⟩ := reachable_graphInv h
  exact traverse_spec hwf hm ha

/-- C4 witness: topological order of `Traverse()` on the spec's example
graph. -/
theorem c4_witness :
    Reachable gEx ∧
      (List.Perm (traverse gEx) gEx.keys ∧
        ∀ a b, EdgeMem gEx a b → [a, b].Sublist (traverse gEx)) :=
  ⟨reachable_gEx, c4_traverse_topological reachable_gEx⟩

/-- C5 counterexample: node 1 is present in `gSingle` and has neither
ancestors nor descendants, yet `Ancestors(1)` and `Descendants(1)` return the
same nil slice as for the absent value 2 — the caller cannot distinguish the
two cases. -/
theorem c5_counterexample :
    (1 : Val) ∈ gSingle.keys ∧
    parentsOf gSingle 1 = [] ∧ childrenOf gSingle 1 = [] ∧
    ancestors gSingle 1 = none ∧ descendants gSingle 1 = none ∧
    ancestors gSingle 2 = none ∧ descendants gSingle 2 = none := by
  decide

/-- C5 (amended): `Ancestors(v)` (resp. `Descendants(v)`) returns a nil slice
for a missing v, but equally returns nil for a present v with no parents
(children): the result is non-nil exactly when v is present and has at least
one parent (child), so an absent start is *not* distinguishable from a
present one with an empty closure. -/
theorem c5_ancestors_nil_characterization (g : DAG) (v : Val) :
    ((ancestors g v).isSome = true ↔ (v ∈ g.keys ∧ parentsOf g v ≠ [])) ∧
    ((descendants g v).isSome = true ↔ (v ∈ g.keys ∧ childrenOf g v ≠ [])) := by
  constructor
  · constructor
    · intro h
      cases hl : lookupNode g.nodes v with
      | none =>
        rw [ancestors_of_absent hl] at h
        simp at h
      | some n =>
        refine ⟨mem_keys_of_lookup hl, ?_⟩
        intro hp
        rw [ancestors_of_no_parents hl hp] at h
        simp at h
    · rintro ⟨hv, hp⟩
      obtain ⟨n, hn⟩ := exists_lookup_of_mem_keys hv
      exact ancestors_isSome_of_parent hn hp
  · constructor
    · intro h
      cases hl : lookupNode g.nodes v with
      | none =>
        rw [descendants_of_absent hl] at h
        simp at h
      | some n =>
        refine ⟨mem_keys_of_lookup hl, ?_⟩
        intro hp
        rw [descendants_of_no_children hl hp] at h
        simp at h
    · rintro ⟨hv, hp⟩
      obtain ⟨n, hn⟩ := exists_lookup_of_mem_keys hv
      exact descendants_isSome_of_child hn hp

/-- C6 counterexample: the single-node graph has no cycle back to node 1, yet
`hasAncestor(1, 1)` returns true — the candidate is compared against the
start node before any upward walk. -/
theorem c6_counterexample :
    ¬ Relation.TransGen (EdgeMem gSingle) 1 1 ∧ hasAncestor gSingle 1 1 = true := by
  constructor
  · exact (reachable_graphInv reachable_gSingle).2.2 1
  · decide

/-- C6 (amended): `hasAncestor` compares the current node against the
candidate before walking upward through `Parents()`, so `n.hasAncestor(n)`
returns true for every node of every graph, cycle or no cycle. -/
theorem c6_hasAncestor_self_true (g : DAG) (n : Val) : hasAncestor g n n = true :=
  hasAncestor_self g n

/-- C7: `ShortestPath(from, to)` returns nil exactly when an endpoint is
missing or no directed path exists, and any returned path is a path from
from to to of minimal length; moreover on the spec's example graph
`ShortestPath(1, 5)` is [1, 2, 5] and `ShortestPath(1, 7)` is nil. -/
theorem c7_shortestPath_correct {g : DAG} (hwf : WF g) (f t : Val) :
    ((shortestPath g f t = none ↔
        (f ∉ g.keys ∨ t ∉ g.keys ∨ ¬ ∃ q, IsPath g f t q)) ∧
      (∀ p, shortestPath g f t = some p →
        IsPath g f t p ∧ ∀ q, IsPath g f t q → p.length ≤ q.length)) ∧
    (shortestPath gEx 1 5 = some [1, 2, 5] ∧ shortestPath gEx 1 7 = none) :=
  ⟨shortestPath_spec hwf f t, by decide, by decide⟩

/-- C7 witness: the correctness statement instantiated on the spec's example
graph at the query (1, 5). -/
theorem c7_witness :
    WF gEx ∧
    (((shortestPath gEx 1 5 = none ↔
        ((1 : Val) ∉ gEx.keys ∨ (5 : Val) ∉ gEx.keys ∨ ¬ ∃ q, IsPath gEx 1 5 q)) ∧
      (∀ p, shortestPath gEx 1 5 = some p →
        IsPath gEx 1 5 p ∧ ∀ q, IsPath gEx 1 5 q → p.length ≤ q.length)) ∧
    (shortestPath gEx 1 5 = some [1, 2, 5] ∧ shortestPath gEx 1 7 = none)) :=
  ⟨by decide, c7_shortestPath_correct (by decide) 1 5⟩

/-- C8: `AddNode` is idempotent and identity-preserving: a second
`AddNode(v)` returns the very node returned by the first call and leaves the
graph — in particular its node set — unchanged. -/
theorem c8_addNode_idempotent (g : DAG) (v : Val) :
    addNode (addNode g v).2 v = ((addNode g v).1, (addNode g v).2) := by
  cases hl : lookupNode g.nodes v with
  | some n =>
    rw [addNode_of_present hl]
    show addNode g v = (n, g)
    exact addNode_of_present hl
  | none =>
    rw [addNode_of_absent hl]
    show addNode (⟨(v, NewNode v) :: g.nodes⟩ : DAG) v =
      (NewNode v, (⟨(v, NewNode v) :: g.nodes⟩ : DAG))
    have hl2 : lookupNode ((v, NewNode v) :: g.nodes) v = some (NewNode v) := by
      simp [lookupNode]
    exact addNode_of_present hl2

/-- C9: after `RemoveNode(v)` on a reachable graph, v appears in no remaining
node's parents or children set and `Node(v)` is absent; when v is not
present, `RemoveNode(v)` leaves the graph unchanged (and there is no error to
signal). -/
theorem c9_removeNode_cascades {g : DAG} (h : Reachable g) (v : Val) :
    (∀ w, v ∉ parentsOf (removeNode g v) w ∧ v ∉ childrenOf (removeNode g v) w) ∧
    DAG.node (removeNode g v) v = none ∧
    (v ∉ g.keys → removeNode g v = g) := by
  obtain ⟨hwf, hm, -⟩ := reachable_graphInv h
  refine ⟨?_, lookupNode_removeNode_self, ?_⟩
  · intro w
    cases hl : lookupNode g.nodes v with
    | none =>
      rw [removeNode_of_absent hl]
      have hv : v ∉ g.keys := by
        rw [mem_keys, hl]
        simp
      exact ⟨fun hp => hv (hwf.parentsOf_subset hp),
             fun hc => hv (hwf.childrenOf_subset hc)⟩
    | some n =>
      by_cases hw : w = v
      · subst hw
        rw [parentsOf_removeNode_self, childrenOf_removeNode_self]
        simp
      · rw [parentsOf_removeNode hl hw, childrenOf_removeNode hl hw]
        have hnc : n.children = childrenOf g v := (childrenOf_eq_some hl).symm
        have hnp : n.parents = parentsOf g v := (parentsOf_eq_some hl).symm
        constructor
        · by_cases hwc : w ∈ n.children
          · rw [if_pos hwc]
            intro hmem
            exact (((hwf.parentsOf_nodup w).mem_erase_iff).mp hmem).1 rfl
          · rw [if_neg hwc]
            intro hp
            apply hwc
            rw [hnc]
            exact (hm v w).mpr hp
        · by_cases hwp : w ∈ n.parents
          · rw [if_pos hwp]
            intro hmem
            exact (((hwf.childrenOf_nodup w).mem_erase_iff).mp hmem).1 rfl
          · rw [if_neg hwp]
            intro hc
            apply hwp
            rw [hnp]
            exact (hm w v).mp hc
  · intro hv
    cases hl : lookupNode g.nodes v with
    | none => exact removeNode_of_absent hl
    | some n => exact absurd (mem_keys_of_lookup hl) hv

/-- C9 witness: removing the middle node 2 of the chain 1 → 2 → 3. -/
theorem c9_witness :
    Reachable gChain ∧
    ((∀ w, (2 : Val) ∉ parentsOf (removeNode gChain 2) w ∧
        (2 : Val) ∉ childrenOf (removeNode gChain 2) w) ∧
      DAG.node (removeNode gChain 2) 2 = none ∧
      ((2 : Val) ∉ gChain.keys → removeNode gChain 2 = gChain)) :=
  ⟨reachable_gChain, c9_removeNode_cascades reachable_gChain 2⟩

/-- C10: for every value v present in the graph, `HasPath(v, v)` is true and
`ShortestPath(v, v)` is the single-node path [v]: the trivial zero-edge path
from a node to itself always counts, incident edges or not. -/
theorem c10_trivial_self_path {g : DAG} {v : Val} (hv : v ∈ g.keys) :
    hasPath g v v = true ∧ shortestPath g v v = some [v] :=
  ⟨hasPath_self hv, shortestPath_self hv⟩

/-- C10 witness: the isolated node 1 of `gSingle`, which has no incident
edges at all. -/
theorem c10_witness :
    (1 : Val) ∈ gSingle.keys ∧
      (hasPath gSingle 1 1 = true ∧ shortestPath gSingle 1 1 = some [1]) :=
  ⟨by decide, c10_trivial_self_path (by decide)⟩
